import Mathlib

/-!
# Hilbert curve encode / decode (`HilbertCurve.h`)

A shallow embedding of `class HilbertCurve` from `include/HilbertCurve.h`
and a verification of its conversion and sorting operations.

Modelling conventions

* `std::vector<unsigned long>` is a `List Nat`; `v[i]` is `v.getD i 0` and
  `v[i] = e` is `v.set i e`.  The target is LP64: `int` has 32 bits,
  `long` and `unsigned long` have 64 bits.
* `int` shifts go through `shlInt`, conversions between `int` and
  `unsigned long` go through `toULong` and `ulongToInt`.
* `for` loops with a fixed index range are folds over the list of their
  indices; `while` loops are recursive functions with a fuel argument.
* `dimension` and `iterations` are natural numbers; the constructor contract is
  `dimension ≥ 1` and `iterations ≥ 1`, so `iterations - 1` and `dimension - 1`
  are the values the program computes.
-/

namespace HilbertCurve

/-! ## Machine integers -/

/-- Two's complement reduction of an integer to the range of a 32-bit `int`. -/
def wrapInt32 (v : Int) : Int :=
  (v + 2147483648) % 4294967296 - 2147483648

/-- The `int` expression `a << k`.  For `0 ≤ a * 2 ^ k < 2 ^ 31` this is the
exact product.  Outside that range the value is the one produced by the
hardware shift: the count is taken modulo 32 and the result is reduced to
32 bits. -/
def shlInt (a : Int) (k : Nat) : Int :=
  wrapInt32 (a * 2 ^ (k % 32))

/-- Conversion of a signed integer (`int` or `long`) to `unsigned long`
(also the conversion done by the constructor of `std::bitset<64>`). -/
def toULong (v : Int) : Nat :=
  (v % 18446744073709551616).toNat

/-- Conversion of an `unsigned long` to `int`, as it happens when the result of
`hilbertNumberFromPoint` is passed to `pointFromHilbertNumber`. -/
def ulongToInt (n : Nat) : Int :=
  wrapInt32 (n : Int)

/-! ## Index lists of the `for` loops -/

/-- The indices `1, 2, ..., dimension - 1` of `for (i = 1; i < dimension; ++i)`. -/
def upFrom1 (dimension : Nat) : List Nat :=
  (List.range (dimension - 1)).map (fun k => k + 1)

/-! ## The exchange / flip pass -/

/-- Body of the inner `for` loop shared by both conversions, for mask `q` and
axis `i`:
```
if (x[i] & q) x[0] = x[0] ^ p;
else { t = (x[0] ^ x[i]) & p; x[0] = x[0] ^ t; x[i] = x[i] ^ t; }
```
with `p = q - 1`. -/
def exchangeStep (q : Nat) (x : List Nat) (i : Nat) : List Nat :=
  let p := q - 1
  if x.getD i 0 &&& q ≠ 0 then
    x.set 0 (x.getD 0 0 ^^^ p)
  else
    let t := (x.getD 0 0 ^^^ x.getD i 0) &&& p
    let x1 := x.set 0 (x.getD 0 0 ^^^ t)
    x1.set i (x1.getD i 0 ^^^ t)

/-- The loop `while (q > 1) { for (i = 0; i < dimension; ++i) ...; q = q >> 1; }`
of `hilbertNumberFromPoint`.  Every round halves `q`, so a 64-bit `q` needs at
most 64 rounds of fuel. -/
def encodeLoop (dimension : Nat) : Nat → Nat → List Nat → List Nat
  | 0, _, x => x
  | fuel + 1, q, x =>
    if q > 1 then
      encodeLoop dimension fuel (q >>> 1)
        ((List.range dimension).foldl (exchangeStep q) x)
    else x

/-- The loop `for (i = 1; i < dimension; ++i) _point[i] = _point[i] ^ _point[i - 1];`
of `hilbertNumberFromPoint`. -/
def grayEncode (dimension : Nat) (x : List Nat) : List Nat :=
  (upFrom1 dimension).foldl (fun x i => x.set i (x.getD i 0 ^^^ x.getD (i - 1) 0)) x

/-- The loop `while (q > 1) { if (_point[dimension - 1] & q) t = t ^ (q - 1); q = q >> 1; }`
of `hilbertNumberFromPoint`; `last` is `_point[dimension - 1]`. -/
def correctionLoop (last : Nat) : Nat → Nat → Nat → Nat
  | 0, _, t => t
  | fuel + 1, q, t =>
    if q > 1 then
      correctionLoop last fuel (q >>> 1) (if last &&& q ≠ 0 then t ^^^ (q - 1) else t)
    else t

/-- The loop `for (i = 0; i < dimension; ++i) _point[i] = _point[i] ^ t;`. -/
def xorAll (dimension : Nat) (t : Nat) (x : List Nat) : List Nat :=
  (List.range dimension).foldl (fun x i => x.set i (x.getD i 0 ^^^ t)) x

/-! ## Transpose and Hilbert integer -/

/-- Inner body of `transposeToHilbertInteger`: the state is `(at, hilbertInteger)`. -/
def interleaveStep (iterations size : Nat) (x : List Nat) (i : Nat)
    (s : Nat × Nat) (j : Nat) : Nat × Nat :=
  (s.1 + 1,
    if (x.getD j 0).testBit (iterations - 1 - i) then
      (s.2 + toULong (shlInt 1 (size - 1 - s.1))) % 18446744073709551616
    else s.2)

/-- `HilbertCurve::transposeToHilbertInteger`. -/
def transposeToHilbertInteger (dimension iterations : Nat) (x : List Nat) : Nat :=
  let size := dimension * iterations
  ((List.range iterations).foldl
    (fun s i => (List.range dimension).foldl (interleaveStep iterations size x i) s)
    (0, 0)).2

/-- The loop `for (j = i; j < size; j += dimension) { if (bits[size - 1 - j])
coord += 1 << rep; rep--; }` of `hilbertIntegerToTranspose`; the state is
`(j, rep, coord)`.  With `dimension ≥ 1` the loop ends within `size` rounds.
The sum `coord` collects distinct powers `2^rep` with `rep < iterations`, so
for `iterations ≤ 31` the `int` addition does not overflow. -/
def coordLoop (bits size dimension : Nat) : Nat → Nat → Int → Int → Int
  | 0, _, _, coord => coord
  | fuel + 1, j, rep, coord =>
    if j < size then
      coordLoop bits size dimension fuel (j + dimension) (rep - 1)
        (if bits.testBit (size - 1 - j) then coord + shlInt 1 rep.toNat else coord)
    else coord

/-- `HilbertCurve::hilbertIntegerToTranspose`. -/
def hilbertIntegerToTranspose (dimension iterations : Nat) (hilbertInteger : Int)
    (transpose : List Nat) : List Nat :=
  let bits := toULong hilbertInteger
  let size := iterations * dimension
  (List.range dimension).foldl
    (fun tr i =>
      tr.set i (toULong (coordLoop bits size dimension size i ((iterations : Int) - 1) 0)))
    transpose

/-! ## The two conversions -/

/-- `HilbertCurve::hilbertNumberFromPoint`. -/
def hilbertNumberFromPoint (dimension iterations : Nat) (point : List Nat) : Nat :=
  let m := toULong (shlInt 1 (iterations - 1))
  let x1 := encodeLoop dimension 64 m point
  let x2 := grayEncode dimension x1
  let t := correctionLoop (x2.getD (dimension - 1) 0) 64 m 0
  let x3 := xorAll dimension t x2
  transposeToHilbertInteger dimension iterations x3

/-- The first part of `pointFromHilbertNumber` after the transpose is built:
```
long t = x[dimension - 1] >> 1;
for (int i = dimension - 1; i > 0; i--) x[i] = x[i] ^ x[i - 1];
x[0] = x[0] ^ t;
```
-/
def grayDecode (dimension : Nat) (x : List Nat) : List Nat :=
  let t := x.getD (dimension - 1) 0 >>> 1
  let x1 := (upFrom1 dimension).reverse.foldl
    (fun x i => x.set i (x.getD i 0 ^^^ x.getD (i - 1) 0)) x
  x1.set 0 (x1.getD 0 0 ^^^ t)

/-- The loop `while (q != z) { for (i = dimension - 1; i > -1; --i) ...; q = q << 1; }`
of `pointFromHilbertNumber`.  The result is `none` when the loop is still
running after `fuel` rounds.  The `long` variable `q` only takes the values
`2, 4, ...`; it is a natural number here and stays exact as long as it is
below `2^63`. -/
def decodeLoop (dimension : Nat) (z : Int) : Nat → Nat → List Nat → Option (List Nat)
  | 0, q, x => if (q : Int) = z then some x else none
  | fuel + 1, q, x =>
    if (q : Int) = z then some x
    else
      decodeLoop dimension z fuel (q <<< 1)
        ((List.range dimension).reverse.foldl (exchangeStep q) x)

/-- `HilbertCurve::pointFromHilbertNumber`, with the fuel of its `while` loop. -/
def pointFromHilbertNumber (dimension iterations : Nat) (fuel : Nat)
    (hilbertNumber : Int) : Option (List Nat) :=
  let x := hilbertIntegerToTranspose dimension iterations hilbertNumber
    (List.replicate dimension 0)
  let z := shlInt 2 (iterations - 1)
  decodeLoop dimension z fuel 2 (grayDecode dimension x)

/-! ## Sorting -/

/-- The value `a` with its `k` low bits inverted: `a ^ (2^k - 1)`. -/
def flipLow (k a : Nat) : Nat := a ^^^ (2 ^ k - 1)

/-- The value with the bits of `a` from position `k` upward and the `k` low bits
of `b`: `a ^ ((a ^ b) & (2^k - 1))`. -/
def mixLow (k a b : Nat) : Nat := a ^^^ ((a ^^^ b) &&& (2 ^ k - 1))

/-- One pass of the encoder over all axes, in increasing axis order. -/
def passUp (dimension k : Nat) (x : List Nat) : List Nat :=
  (List.range dimension).foldl (exchangeStep (2 ^ k)) x

/-- One pass of the decoder over all axes, in decreasing axis order. -/
def passDown (dimension k : Nat) (x : List Nat) : List Nat :=
  (List.range dimension).reverse.foldl (exchangeStep (2 ^ k)) x

/-- The encoder passes for the masks `2^k, 2^(k-1), ..., 2^1`. -/
def encodePasses (dimension : Nat) : Nat → List Nat → List Nat
  | 0, x => x
  | k + 1, x => encodePasses dimension k (passUp dimension (k + 1) x)

/-- The `n` decoder passes for the masks `2^k, 2^(k+1), ..., 2^(k+n-1)`. -/
def decodePasses (dimension : Nat) : Nat → Nat → List Nat → List Nat
  | 0, _, x => x
  | n + 1, k, x => decodePasses dimension n (k + 1) (passDown dimension k x)

/-- The number with bit `r` equal to `g r` for `r < n` and no other bit. -/
def bitsSum (g : Nat → Bool) : Nat → Nat
  | 0 => 0
  | n + 1 => bitsSum g n + (if g n then 2 ^ n else 0)

/-- Every entry of the array is below `2^b`. -/
def Bounded (b : Nat) (x : List Nat) : Prop := ∀ i, x.getD i 0 < 2 ^ b

/-- The bit that `transposeToHilbertInteger` puts at position `n` of its result:
with `at = size - 1 - n`, bit `iterations - 1 - at / dimension` of axis
`at % dimension`. -/
def indexBit (dimension iterations : Nat) (x : List Nat) (n : Nat) : Bool :=
  (x.getD ((dimension * iterations - 1 - n) % dimension) 0).testBit
    (iterations - 1 - (dimension * iterations - 1 - n) / dimension)

/-- The bit that `hilbertIntegerToTranspose` puts at position `r` of axis `i`. -/
def axisBit (dimension iterations bits i : Nat) (r : Nat) : Bool :=
  bits.testBit (iterations * dimension - 1 - (i + (iterations - 1 - r) * dimension))

/-- The XOR of the entries `0, ..., i` of the array. -/
def prefixXor (x : List Nat) : Nat → Nat
  | 0 => x.getD 0 0
  | i + 1 => prefixXor x i ^^^ x.getD (i + 1) 0

/-- The correction term collected from the masks `2^k, ..., 2^1`. -/
def corr (y : Nat) : Nat → Nat
  | 0 => 0
  | k + 1 => corr y k ^^^ (if y.testBit (k + 1) then 2 ^ (k + 1) - 1 else 0)

/-- The transpose representation computed by `hilbertNumberFromPoint` before the
final interleaving, with the loops replaced by their closed forms. -/
def encodeTranspose (dimension iterations : Nat) (point : List Nat) : List Nat :=
  let x2 := grayEncode dimension (encodePasses dimension (iterations - 1) point)
  xorAll dimension (corr (x2.getD (dimension - 1) 0) (iterations - 1)) x2

/-- The point computed by `pointFromHilbertNumber` from a transpose, with the
`while` loop replaced by its sequence of passes. -/
def decodeTranspose (dimension iterations : Nat) (x : List Nat) : List Nat :=
  decodePasses dimension (iterations - 1) 1 (grayDecode dimension x)

/-- Two arrays agree on every axis except possibly axis `i`. -/
def AgreeOff (i : Nat) (x y : List Nat) : Prop := ∀ j, j ≠ i → x.getD j 0 = y.getD j 0

/-- Two arrays of the same length are lattice neighbours whose difference sits
below bit `k`: they agree off one axis `i`, and on that axis the values differ
by exactly one and have the same bits from position `k` upward. -/
def Adj (k : Nat) (x y : List Nat) : Prop :=
  x.length = y.length ∧ ∃ i, i < x.length ∧ AgreeOff i x y ∧
    x.getD i 0 / 2 ^ k = y.getD i 0 / 2 ^ k ∧
    (x.getD i 0 + 1 = y.getD i 0 ∨ y.getD i 0 + 1 = x.getD i 0)

/-- The `m` low bits of every entry are zero. -/
def LowZero (m : Nat) (x : List Nat) : Prop :=
  ∀ j r, r < m → (x.getD j 0).testBit r = false

/-- Two arrays agree on the `b` low bits of the axes `0, ..., d - 1`. -/
def LowEq (d b : Nat) (x y : List Nat) : Prop :=
  ∀ j r, j < d → r < b → (x.getD j 0).testBit r = (y.getD j 0).testBit r

/-! ## Machine integers: exactness on the valid range -/

theorem wrapInt32_of_range {v : Int} (h0 : -2147483648 ≤ v) (h1 : v < 2147483648) :
    wrapInt32 v = v := by
  unfold wrapInt32
  omega

theorem two_pow_le_of_le_30 {k : Nat} (hk : k ≤ 30) : (2 : Nat) ^ k ≤ 1073741824 := by
  have h := Nat.pow_le_pow_right (show 0 < 2 by norm_num) hk
  norm_num at h
  exact h

theorem shlInt_one {k : Nat} (hk : k ≤ 30) : shlInt 1 k = ((2 ^ k : Nat) : Int) := by
  unfold shlInt
  rw [Nat.mod_eq_of_lt (by omega), one_mul]
  have h := two_pow_le_of_le_30 hk
  have h2 : ((2 : Int) ^ k) = ((2 ^ k : Nat) : Int) := by push_cast; rfl
  rw [h2]
  generalize 2 ^ k = n at h ⊢
  apply wrapInt32_of_range <;> omega

theorem shlInt_two {k : Nat} (hk : k ≤ 29) : shlInt 2 k = ((2 ^ (k + 1) : Nat) : Int) := by
  unfold shlInt
  rw [Nat.mod_eq_of_lt (by omega)]
  have h := two_pow_le_of_le_30 (show k + 1 ≤ 30 by omega)
  have h2 : (2 : Int) * (2 : Int) ^ k = ((2 ^ (k + 1) : Nat) : Int) := by push_cast; ring
  rw [h2]
  generalize 2 ^ (k + 1) = n at h ⊢
  apply wrapInt32_of_range <;> omega

theorem toULong_natCast {n : Nat} (h : n < 18446744073709551616) : toULong (n : Int) = n := by
  unfold toULong
  omega

theorem ulongToInt_of_lt {n : Nat} (h : n < 2147483648) : ulongToInt n = (n : Int) := by
  unfold ulongToInt
  apply wrapInt32_of_range <;> omega

/-! ## Lists as arrays -/

theorem getD_set (x : List Nat) (i j v : Nat) :
    (x.set i v).getD j 0 = if i = j ∧ i < x.length then v else x.getD j 0 := by
  simp only [List.getD_eq_getElem?_getD, List.getElem?_set]
  by_cases hij : i = j
  · subst hij
    by_cases hl : i < x.length
    · simp [hl]
    · have hn : x[i]? = none := List.getElem?_eq_none (by omega)
      simp [hl, hn]
  · simp [hij]

theorem getD_of_length_le (x : List Nat) (i : Nat) (h : x.length ≤ i) : x.getD i 0 = 0 := by
  simp [List.getD_eq_getElem?_getD, List.getElem?_eq_none h]

theorem ext_getD {x y : List Nat} (hl : x.length = y.length)
    (h : ∀ i, i < x.length → x.getD i 0 = y.getD i 0) : x = y := by
  apply List.ext_getElem hl
  intro i h1 h2
  have := h i h1
  simpa [List.getD_eq_getElem?_getD, List.getElem?_eq_getElem h1, List.getElem?_eq_getElem h2]
    using this

theorem set_getD_self (x : List Nat) (i : Nat) : x.set i (x.getD i 0) = x := by
  apply ext_getD (by simp)
  intro j _
  rw [getD_set]
  split
  · next h => rw [h.1]
  · rfl

/-! ## Bit manipulation -/

theorem testBit_flipLow (k a r : Nat) :
    (flipLow k a).testBit r = (a.testBit r != decide (r < k)) := by
  simp [flipLow]

theorem testBit_mixLow (k a b r : Nat) :
    (mixLow k a b).testBit r = if r < k then b.testBit r else a.testBit r := by
  simp only [mixLow, Nat.testBit_xor, Nat.testBit_and, Nat.testBit_two_pow_sub_one]
  by_cases h : r < k <;> simp [h]

theorem and_two_pow_ne_zero_iff (a k : Nat) : a &&& 2 ^ k ≠ 0 ↔ a.testBit k = true := by
  have h : a &&& 2 ^ k = if a.testBit k then 2 ^ k else 0 := by
    apply Nat.eq_of_testBit_eq
    intro i
    by_cases hb : a.testBit k = true
    · simp only [hb, if_true, Nat.testBit_and, Nat.testBit_two_pow]
      by_cases hki : k = i
      · subst hki; simp [hb]
      · simp [hki]
    · simp only [hb, Nat.testBit_and, Nat.testBit_two_pow]
      by_cases hki : k = i
      · subst hki; simp [hb]
      · simp [hki]
  rw [h]
  by_cases hb : a.testBit k = true
  · simp [hb]
  · simp [hb]

theorem flipLow_flipLow (k a : Nat) : flipLow k (flipLow k a) = a := by
  apply Nat.eq_of_testBit_eq
  intro i
  simp [testBit_flipLow]

theorem mixLow_self (k a : Nat) : mixLow k a a = a := by
  simp [mixLow]

theorem mixLow_mixLow (k a b : Nat) : mixLow k (mixLow k a b) (mixLow k b a) = a := by
  apply Nat.eq_of_testBit_eq
  intro i
  simp only [testBit_mixLow]
  by_cases h : i < k <;> simp [h]

theorem flipLow_lt {k b a : Nat} (hk : k ≤ b) (ha : a < 2 ^ b) : flipLow k a < 2 ^ b := by
  unfold flipLow
  apply Nat.xor_lt_two_pow ha
  have := Nat.pow_le_pow_right (show 0 < 2 by norm_num) hk
  have : 0 < 2 ^ k := Nat.two_pow_pos k
  omega

theorem mixLow_lt {k b a c : Nat} (ha : a < 2 ^ b) (hc : c < 2 ^ b) : mixLow k a c < 2 ^ b := by
  unfold mixLow
  apply Nat.xor_lt_two_pow ha
  exact Nat.lt_of_le_of_lt Nat.and_le_left (Nat.xor_lt_two_pow ha hc)

/-! ## The exchange step on a power-of-two mask -/

theorem exchangeStep_eq (k : Nat) (x : List Nat) (i : Nat) :
    exchangeStep (2 ^ k) x i =
      if (x.getD i 0).testBit k then x.set 0 (flipLow k (x.getD 0 0))
      else (x.set 0 (mixLow k (x.getD 0 0) (x.getD i 0))).set i
        (mixLow k (x.getD i 0) (x.getD 0 0)) := by
  unfold exchangeStep
  simp only [and_two_pow_ne_zero_iff]
  by_cases hb : (x.getD i 0).testBit k = true
  · simp only [hb, if_true, flipLow]
  · simp only [hb]
    by_cases hi : i = 0
    · subst hi
      simp only [mixLow, Nat.xor_self, Nat.zero_and, Nat.xor_zero, getD_set]
      congr 1
      split <;> rfl
    · have h0 : (x.set 0 (x.getD 0 0 ^^^ (x.getD 0 0 ^^^ x.getD i 0) &&& (2 ^ k - 1))).getD i 0
          = x.getD i 0 := by
        rw [getD_set]; simp [Ne.symm hi]
      rw [h0]
      simp only [mixLow, Nat.xor_comm (x.getD i 0) (x.getD 0 0), Bool.false_eq_true, if_false]

theorem length_exchangeStep (q : Nat) (x : List Nat) (i : Nat) :
    (exchangeStep q x i).length = x.length := by
  unfold exchangeStep
  split <;> simp

theorem getD_exchangeStep (k : Nat) (x : List Nat) (i j : Nat) (hi : i < x.length) :
    (exchangeStep (2 ^ k) x i).getD j 0 =
      if (x.getD i 0).testBit k then
        (if j = 0 then flipLow k (x.getD 0 0) else x.getD j 0)
      else if j = i then mixLow k (x.getD i 0) (x.getD 0 0)
      else if j = 0 then mixLow k (x.getD 0 0) (x.getD i 0)
      else x.getD j 0 := by
  rw [exchangeStep_eq]
  have h0 : 0 < x.length := by omega
  by_cases hb : (x.getD i 0).testBit k = true
  · simp only [hb, if_true, getD_set]
    by_cases hj : j = 0
    · simp [hj, h0]
    · simp [hj, Ne.symm hj]
  · simp only [hb, getD_set, List.length_set]
    by_cases hji : j = i
    · subst hji; simp [hi]
    · by_cases hj : j = 0
      · subst hj; simp [hji, Ne.symm hji, h0]
      · simp [hji, hj, Ne.symm hji, Ne.symm hj]

theorem exchangeStep_involutive (k : Nat) (x : List Nat) (i : Nat) (hi : i < x.length) :
    exchangeStep (2 ^ k) (exchangeStep (2 ^ k) x i) i = x := by
  have hl : (exchangeStep (2 ^ k) x i).length = x.length := length_exchangeStep _ _ _
  apply ext_getD (by rw [length_exchangeStep, hl])
  intro j _
  rw [getD_exchangeStep k _ i j (by omega)]
  rw [getD_exchangeStep k x i i hi, getD_exchangeStep k x i 0 hi, getD_exchangeStep k x i j hi]
  by_cases hb : (x.getD i 0).testBit k = true
  · by_cases hi0 : i = 0
    · subst hi0
      by_cases hj : j = 0
      · subst hj; simp [-List.getD_eq_getElem?_getD, hb, testBit_flipLow, flipLow_flipLow]
      · simp [-List.getD_eq_getElem?_getD, hb, testBit_flipLow, hj]
    · by_cases hj : j = 0
      · subst hj; simp [-List.getD_eq_getElem?_getD, hb, hi0, flipLow_flipLow]
      · simp [-List.getD_eq_getElem?_getD, hb, hi0, hj]
  · by_cases hji : j = i
    · subst hji
      by_cases hj0 : j = 0
      · subst hj0
        simp [-List.getD_eq_getElem?_getD, hb, testBit_mixLow, mixLow_self]
      · simp [-List.getD_eq_getElem?_getD, hb, testBit_mixLow, mixLow_mixLow, Ne.symm hj0]
    · by_cases hj : j = 0
      · subst hj
        simp [-List.getD_eq_getElem?_getD, hb, testBit_mixLow, mixLow_mixLow, hji, Ne.symm hji]
      · simp [-List.getD_eq_getElem?_getD, hb, testBit_mixLow, hji, hj]

/-! ## Passes over all axes -/

theorem length_foldl_exchangeStep (q : Nat) (l : List Nat) (x : List Nat) :
    (l.foldl (exchangeStep q) x).length = x.length := by
  induction l generalizing x with
  | nil => rfl
  | cons i rest ih => rw [List.foldl_cons, ih, length_exchangeStep]

theorem length_passUp (d k : Nat) (x : List Nat) : (passUp d k x).length = x.length :=
  length_foldl_exchangeStep _ _ _

theorem length_passDown (d k : Nat) (x : List Nat) : (passDown d k x).length = x.length :=
  length_foldl_exchangeStep _ _ _

theorem foldl_exchangeStep_reverse (k : Nat) (l : List Nat) (x : List Nat)
    (hl : ∀ i ∈ l, i < x.length) :
    l.reverse.foldl (exchangeStep (2 ^ k)) (l.foldl (exchangeStep (2 ^ k)) x) = x := by
  induction l generalizing x with
  | nil => rfl
  | cons i rest ih =>
    rw [List.foldl_cons, List.reverse_cons, List.foldl_append, ih]
    · simp only [List.foldl_cons, List.foldl_nil]
      exact exchangeStep_involutive k x i (hl i (List.mem_cons_self _ _))
    · intro j hj
      rw [length_exchangeStep]
      exact hl j (List.mem_cons_of_mem _ hj)

theorem passDown_passUp (d k : Nat) (x : List Nat) (hd : d ≤ x.length) :
    passDown d k (passUp d k x) = x := by
  unfold passDown passUp
  apply foldl_exchangeStep_reverse
  intro i hi
  have := List.mem_range.mp hi
  omega

theorem passUp_passDown (d k : Nat) (x : List Nat) (hd : d ≤ x.length) :
    passUp d k (passDown d k x) = x := by
  unfold passDown passUp
  have h := foldl_exchangeStep_reverse k (List.range d).reverse x (by
    intro i hi
    have := List.mem_range.mp (List.mem_reverse.mp hi)
    omega)
  rwa [List.reverse_reverse] at h

theorem length_encodePasses (d k : Nat) (x : List Nat) :
    (encodePasses d k x).length = x.length := by
  induction k generalizing x with
  | zero => rfl
  | succ k ih => rw [encodePasses, ih, length_passUp]

theorem length_decodePasses (d n k : Nat) (x : List Nat) :
    (decodePasses d n k x).length = x.length := by
  induction n generalizing k x with
  | zero => rfl
  | succ n ih => rw [decodePasses, ih, length_passDown]

theorem decodePasses_succ_last (d n k : Nat) (x : List Nat) :
    decodePasses d (n + 1) k x = passDown d (k + n) (decodePasses d n k x) := by
  induction n generalizing k x with
  | zero => rfl
  | succ n ih =>
    rw [decodePasses, ih (k + 1) (passDown d k x)]
    have : k + 1 + n = k + (n + 1) := by omega
    rw [this]
    rfl

theorem decodePasses_add (d n1 n2 k : Nat) (x : List Nat) :
    decodePasses d (n1 + n2) k x = decodePasses d n2 (k + n1) (decodePasses d n1 k x) := by
  induction n1 generalizing k x with
  | zero => simp [decodePasses]
  | succ n ih =>
    have : n + 1 + n2 = (n + n2) + 1 := by omega
    rw [this, decodePasses, ih, decodePasses]
    have : k + 1 + n = k + (n + 1) := by omega
    rw [this]

theorem decodePasses_encodePasses (d n : Nat) (x : List Nat) (hd : d ≤ x.length) :
    decodePasses d n 1 (encodePasses d n x) = x := by
  induction n generalizing x with
  | zero => rfl
  | succ n ih =>
    rw [decodePasses_succ_last, encodePasses, ih _ (by rw [length_passUp]; exact hd)]
    rw [Nat.add_comm 1 n]
    exact passDown_passUp d (n + 1) x hd

theorem encodePasses_decodePasses (d n : Nat) (x : List Nat) (hd : d ≤ x.length) :
    encodePasses d n (decodePasses d n 1 x) = x := by
  induction n generalizing x with
  | zero => rfl
  | succ n ih =>
    rw [decodePasses_succ_last, encodePasses, Nat.add_comm 1 n,
      passUp_passDown d (n + 1) _ (by rw [length_decodePasses]; exact hd)]
    exact ih x hd

/-! ## The `while` loops as sequences of passes -/

theorem encodeLoop_eq (d k fuel : Nat) (x : List Nat) (hk : k ≤ fuel) :
    encodeLoop d fuel (2 ^ k) x = encodePasses d k x := by
  induction k generalizing fuel x with
  | zero =>
    cases fuel with
    | zero => rfl
    | succ f => simp [encodeLoop, encodePasses]
  | succ k ih =>
    cases fuel with
    | zero => omega
    | succ f =>
      have h1 : 2 ^ (k + 1) > 1 := Nat.one_lt_two_pow (by omega)
      have h2 : 2 ^ (k + 1) >>> 1 = 2 ^ k := by
        rw [Nat.shiftRight_eq_div_pow, pow_succ]; simp
      rw [encodeLoop, if_pos h1, h2, ih f _ (by omega), encodePasses]
      rfl

theorem two_pow_cast_eq_iff (k b : Nat) : (((2 ^ k : Nat) : Int) = ((2 ^ b : Nat) : Int)) ↔ k = b := by
  constructor
  · intro h
    have h2 : 2 ^ k = 2 ^ b := by exact_mod_cast h
    exact Nat.pow_right_injective (le_refl 2) h2
  · intro h; rw [h]

theorem decodeLoop_eq (d b n k fuel : Nat) (x : List Nat) (hb : k + n = b) (hf : n ≤ fuel) :
    decodeLoop d ((2 ^ b : Nat) : Int) fuel (2 ^ k) x = some (decodePasses d n k x) := by
  induction n generalizing k fuel x with
  | zero =>
    have hkb : k = b := by omega
    subst hkb
    cases fuel with
    | zero => simp [decodeLoop, decodePasses]
    | succ f => simp [decodeLoop, decodePasses]
  | succ n ih =>
    cases fuel with
    | zero => omega
    | succ f =>
      have hne : ¬ (((2 ^ k : Nat) : Int) = ((2 ^ b : Nat) : Int)) := by
        rw [two_pow_cast_eq_iff]; omega
      have h2 : 2 ^ k <<< 1 = 2 ^ (k + 1) := by
        rw [Nat.shiftLeft_eq, pow_one, pow_succ]
      rw [decodeLoop, if_neg hne, h2, ih (k + 1) f _ (by omega) (by omega), decodePasses]
      rfl

/-! ## Bounds -/

theorem bounded_set {b : Nat} {x : List Nat} (hx : Bounded b x) (i v : Nat) (hv : v < 2 ^ b) :
    Bounded b (x.set i v) := by
  intro j
  rw [getD_set]
  split
  · exact hv
  · exact hx j

theorem bounded_exchangeStep {b k : Nat} (hk : k ≤ b) {x : List Nat} (hx : Bounded b x)
    (i : Nat) : Bounded b (exchangeStep (2 ^ k) x i) := by
  rw [exchangeStep_eq]
  split
  · exact bounded_set hx _ _ (flipLow_lt hk (hx 0))
  · exact bounded_set (bounded_set hx _ _ (mixLow_lt (hx 0) (hx i))) _ _ (mixLow_lt (hx i) (hx 0))

theorem bounded_foldl_exchangeStep {b k : Nat} (hk : k ≤ b) (l : List Nat) {x : List Nat}
    (hx : Bounded b x) : Bounded b (l.foldl (exchangeStep (2 ^ k)) x) := by
  induction l generalizing x with
  | nil => exact hx
  | cons i rest ih => exact ih (bounded_exchangeStep hk hx i)

theorem bounded_encodePasses {b k : Nat} (hk : k ≤ b) (d : Nat) {x : List Nat}
    (hx : Bounded b x) : Bounded b (encodePasses d k x) := by
  induction k generalizing x with
  | zero => exact hx
  | succ k ih =>
    rw [encodePasses]
    exact ih (by omega) (bounded_foldl_exchangeStep hk _ hx)

theorem bounded_decodePasses {b : Nat} (d n k : Nat) (hk : k + n ≤ b + 1) {x : List Nat}
    (hx : Bounded b x) : Bounded b (decodePasses d n k x) := by
  induction n generalizing k x with
  | zero => exact hx
  | succ n ih =>
    rw [decodePasses]
    exact ih (k + 1) (by omega) (bounded_foldl_exchangeStep (by omega) _ hx)

/-! ## Sums of selected powers of two -/

theorem bitsSum_lt (g : Nat → Bool) (n : Nat) : bitsSum g n < 2 ^ n := by
  induction n with
  | zero => simp [bitsSum]
  | succ n ih =>
    rw [bitsSum, pow_succ]
    split <;> omega

theorem testBit_bitsSum (g : Nat → Bool) (n r : Nat) :
    (bitsSum g n).testBit r = (decide (r < n) && g r) := by
  induction n with
  | zero => simp [bitsSum]
  | succ n ih =>
    rw [bitsSum]
    by_cases hg : g n = true
    · rw [if_pos hg]
      have h := Nat.testBit_mul_pow_two_add 1 (bitsSum_lt g n) r
      rw [Nat.mul_one, Nat.add_comm] at h
      rw [h, ih]
      by_cases hr : r < n
      · simp [hr, show r < n + 1 by omega]
      · by_cases hrn : r = n
        · subst hrn; simp [hg]
        · have h1 : ¬ r < n + 1 := by omega
          have h2 : r - n ≠ 0 := by omega
          have h3 : Nat.testBit 1 (r - n) = false := by
            cases hh : Nat.testBit 1 (r - n) with
            | false => rfl
            | true => exact absurd (Nat.testBit_one_eq_true_iff_self_eq_zero.mp hh) h2
          simp [hr, h1, h3]
    · rw [if_neg hg, Nat.add_zero, ih]
      by_cases hr : r < n
      · simp [hr, show r < n + 1 by omega]
      · by_cases hrn : r = n
        · subst hrn; simp [hg]
        · have h1 : ¬ r < n + 1 := by omega
          simp [hr, h1]

theorem bitsSum_congr {g g' : Nat → Bool} {n : Nat} (h : ∀ r, r < n → g r = g' r) :
    bitsSum g n = bitsSum g' n := by
  induction n with
  | zero => rfl
  | succ n ih =>
    rw [bitsSum, bitsSum, ih (fun r hr => h r (by omega)), h n (by omega)]

theorem bitsSum_testBit {a n : Nat} (ha : a < 2 ^ n) : bitsSum a.testBit n = a := by
  apply Nat.eq_of_testBit_eq
  intro r
  rw [testBit_bitsSum]
  by_cases hr : r < n
  · simp [hr]
  · have : a.testBit r = false :=
      Nat.testBit_lt_two_pow (Nat.lt_of_lt_of_le ha (Nat.pow_le_pow_right (by norm_num) (by omega)))
    simp [hr, this]

theorem two_pow_le_of_le_31 {k : Nat} (hk : k ≤ 31) : (2 : Nat) ^ k ≤ 2147483648 := by
  have h := Nat.pow_le_pow_right (show 0 < 2 by norm_num) hk
  norm_num at h
  exact h

/-! ## `transposeToHilbertInteger` in closed form -/

theorem interleave_inner (d b : Nat) (x : List Nat) (hsz : d * b ≤ 31) (i : Nat) (hi : i < b)
    (j0 : Nat) (hj0 : j0 ≤ d) (s : Nat × Nat) (hs1 : s.1 = i * d)
    (hs2 : s.2 + bitsSum (indexBit d b x) (d * b - i * d) = bitsSum (indexBit d b x) (d * b)) :
    ((List.range j0).foldl (interleaveStep b (d * b) x i) s).1 = i * d + j0 ∧
    ((List.range j0).foldl (interleaveStep b (d * b) x i) s).2
        + bitsSum (indexBit d b x) (d * b - (i * d + j0))
      = bitsSum (indexBit d b x) (d * b) := by
  induction j0 with
  | zero => exact ⟨by simpa using hs1, by simpa using hs2⟩
  | succ j ih =>
    obtain ⟨ih1, ih2⟩ := ih (by omega)
    rw [List.range_succ, List.foldl_append]
    simp only [List.foldl_cons, List.foldl_nil]
    generalize (List.range j).foldl (interleaveStep b (d * b) x i) s = s' at ih1 ih2
    have hlt : i * d + j < d * b := by
      have : (i + 1) * d ≤ b * d := Nat.mul_le_mul_right d (by omega)
      rw [Nat.mul_comm d b]
      rw [Nat.add_mul] at this
      omega
    have hsplit : d * b - (i * d + j) = (d * b - (i * d + (j + 1))) + 1 := by omega
    have hbit : indexBit d b x (d * b - (i * d + (j + 1))) = (x.getD j 0).testBit (b - 1 - i) := by
      unfold indexBit
      have e : d * b - 1 - (d * b - (i * d + (j + 1))) = j + i * d := by omega
      rw [e, Nat.add_mul_mod_self_right, Nat.add_mul_div_right _ _ (by omega : 0 < d),
        Nat.mod_eq_of_lt (by omega), Nat.div_eq_of_lt (by omega), Nat.zero_add]
    rw [hsplit, bitsSum, hbit] at ih2
    unfold interleaveStep
    refine ⟨by simp only; omega, ?_⟩
    simp only
    rw [ih1]
    have hk : d * b - 1 - (i * d + j) = d * b - (i * d + (j + 1)) := by omega
    rw [hk]
    have htot := bitsSum_lt (indexBit d b x) (d * b)
    have h31 := two_pow_le_of_le_31 hsz
    by_cases hb : (x.getD j 0).testBit (b - 1 - i) = true
    · rw [if_pos hb] at ih2 ⊢
      rw [shlInt_one (by omega)]
      have h30 := two_pow_le_of_le_30 (show d * b - (i * d + (j + 1)) ≤ 30 by omega)
      rw [toULong_natCast (by omega)]
      rw [Nat.mod_eq_of_lt (by omega)]
      omega
    · rw [if_neg hb] at ih2 ⊢
      omega

theorem interleave_outer (d b : Nat) (x : List Nat) (hsz : d * b ≤ 31)
    (i0 : Nat) (hi0 : i0 ≤ b) :
    ((List.range i0).foldl
        (fun s i => (List.range d).foldl (interleaveStep b (d * b) x i) s) (0, 0)).1 = i0 * d ∧
    ((List.range i0).foldl
        (fun s i => (List.range d).foldl (interleaveStep b (d * b) x i) s) (0, 0)).2
        + bitsSum (indexBit d b x) (d * b - i0 * d)
      = bitsSum (indexBit d b x) (d * b) := by
  induction i0 with
  | zero => simp
  | succ i ih =>
    obtain ⟨ih1, ih2⟩ := ih (by omega)
    rw [List.range_succ, List.foldl_append]
    simp only [List.foldl_cons, List.foldl_nil]
    have h := interleave_inner d b x hsz i (by omega) d (le_refl d) _ ih1 ih2
    have e : i * d + d = (i + 1) * d := by rw [Nat.add_mul, Nat.one_mul]
    rw [e] at h
    exact h

theorem transposeToHilbertInteger_eq (d b : Nat) (x : List Nat) (hsz : d * b ≤ 31) :
    transposeToHilbertInteger d b x = bitsSum (indexBit d b x) (d * b) := by
  unfold transposeToHilbertInteger
  have h := (interleave_outer d b x hsz b (le_refl b)).2
  rw [Nat.mul_comm b d, Nat.sub_self, bitsSum, Nat.add_zero] at h
  exact h

theorem transposeToHilbertInteger_lt (d b : Nat) (x : List Nat) (hsz : d * b ≤ 31) :
    transposeToHilbertInteger d b x < 2 ^ (d * b) := by
  rw [transposeToHilbertInteger_eq d b x hsz]
  exact bitsSum_lt _ _

/-! ## `hilbertIntegerToTranspose` in closed form -/

theorem coordLoop_eq (bits d b i : Nat) (hd : i < d) (hb : b ≤ 31) (n : Nat) :
    ∀ (k fuel : Nat) (coord : Int), k + n = b → n ≤ fuel →
      coordLoop bits (b * d) d fuel (i + k * d) ((b : Int) - 1 - k) coord
        = coord + ((bitsSum (axisBit d b bits i) (b - k) : Nat) : Int) := by
  induction n with
  | zero =>
    intro k fuel coord hk _
    have hkb : k = b := by omega
    subst hkb
    have hnot : ¬ (i + k * d < k * d) := by omega
    cases fuel with
    | zero => simp [coordLoop, bitsSum]
    | succ f => simp [coordLoop, bitsSum, hnot]
  | succ n ih =>
    intro k fuel coord hk hf
    cases fuel with
    | zero => omega
    | succ f =>
      have hlt : i + k * d < b * d := by
        have : (k + 1) * d ≤ b * d := Nat.mul_le_mul_right d (by omega)
        rw [Nat.add_mul] at this
        omega
      rw [coordLoop, if_pos hlt]
      have e1 : i + k * d + d = i + (k + 1) * d := by rw [Nat.add_mul]; omega
      have e2 : (b : Int) - 1 - (k : Int) - 1 = (b : Int) - 1 - ((k + 1 : Nat) : Int) := by
        push_cast; ring
      rw [e1, e2, ih (k + 1) f _ (by omega) (by omega)]
      have e3 : ((b : Int) - 1 - (k : Int)).toNat = b - 1 - k := by omega
      have hsplit : b - k = (b - (k + 1)) + 1 := by omega
      have hbit : axisBit d b bits i (b - (k + 1)) = bits.testBit (b * d - 1 - (i + k * d)) := by
        unfold axisBit
        have : b - 1 - (b - (k + 1)) = k := by omega
        rw [this]
      rw [hsplit, bitsSum, hbit, e3]
      by_cases hbt : bits.testBit (b * d - 1 - (i + k * d)) = true
      · rw [if_pos hbt, if_pos hbt, shlInt_one (by omega)]
        have : b - 1 - k = b - (k + 1) := by omega
        rw [this]
        push_cast
        ring
      · rw [if_neg hbt, if_neg hbt]
        push_cast
        ring

theorem length_foldl_set {β : Type} (c : List Nat → β → Nat × Nat) (l : List β) (x : List Nat) :
    (l.foldl (fun tr i => tr.set (c tr i).1 (c tr i).2) x).length = x.length := by
  induction l generalizing x with
  | nil => rfl
  | cons i rest ih => rw [List.foldl_cons, ih, List.length_set]

theorem length_hilbertIntegerToTranspose (d b : Nat) (h : Int) (x : List Nat) :
    (hilbertIntegerToTranspose d b h x).length = x.length := by
  unfold hilbertIntegerToTranspose
  exact length_foldl_set
    (fun _ i => (i, toULong (coordLoop (toULong h) (b * d) d (b * d) i ((b : Int) - 1) 0))) _ _

theorem getD_foldl_set_const (c : Nat → Nat) (n : Nat) (x : List Nat) (hn : n ≤ x.length)
    (j : Nat) :
    ((List.range n).foldl (fun tr i => tr.set i (c i)) x).getD j 0
      = if j < n then c j else x.getD j 0 := by
  induction n with
  | zero => simp
  | succ n ih =>
    rw [List.range_succ, List.foldl_append]
    simp only [List.foldl_cons, List.foldl_nil]
    rw [getD_set, ih (by omega)]
    have hlen : ((List.range n).foldl (fun tr i => tr.set i (c i)) x).length = x.length :=
      length_foldl_set (fun _ i => (i, c i)) _ _
    rw [hlen]
    by_cases hj : n = j
    · subst hj
      simp [show n < x.length by omega]
    · by_cases hjn : j < n
      · simp [hj, hjn, show j < n + 1 by omega]
      · simp [hj, hjn, show ¬ j < n + 1 by omega]

theorem getD_hilbertIntegerToTranspose (d b : Nat) (h : Int) (x : List Nat)
    (hx : d ≤ x.length) (hb : b ≤ 31) (i : Nat) (hi : i < d) :
    (hilbertIntegerToTranspose d b h x).getD i 0 = bitsSum (axisBit d b (toULong h) i) b := by
  unfold hilbertIntegerToTranspose
  simp only
  rw [getD_foldl_set_const
    (fun i => toULong (coordLoop (toULong h) (b * d) d (b * d) i ((b : Int) - 1) 0)) d x hx i,
    if_pos hi]
  have h0 := coordLoop_eq (toULong h) d b i hi hb b 0 (b * d) 0 (by omega) (by
    calc b = b * 1 := (Nat.mul_one b).symm
      _ ≤ b * d := Nat.mul_le_mul_left b (by omega))
  simp only [Nat.zero_mul, Nat.add_zero, Nat.cast_zero, sub_zero, zero_add, Nat.sub_zero] at h0
  rw [h0]
  apply toULong_natCast
  have := bitsSum_lt (axisBit d b (toULong h) i) b
  have := two_pow_le_of_le_31 hb
  omega

/-! ## The two transpose conversions are mutually inverse -/

theorem le_of_mul_le_31 {d b : Nat} (hd : 0 < d) (hsz : d * b ≤ 31) : b ≤ 31 :=
  Nat.le_trans (Nat.le_mul_of_pos_left b hd) hsz

theorem toULong_ulongToInt {n : Nat} (h : n < 2147483648) : toULong (ulongToInt n) = n := by
  rw [ulongToInt_of_lt h, toULong_natCast (by omega)]

theorem axis_index_lt {d b i r : Nat} (hi : i < d) (hr : r < b) :
    i + (b - 1 - r) * d < b * d := by
  have : (b - 1 - r + 1) * d ≤ b * d := Nat.mul_le_mul_right d (by omega)
  rw [Nat.add_mul] at this
  omega

theorem hilbertIntegerToTranspose_transposeToHilbertInteger (d b : Nat) (x : List Nat)
    (hsz : d * b ≤ 31) (hlen : x.length = d) (hx : Bounded b x) :
    hilbertIntegerToTranspose d b (ulongToInt (transposeToHilbertInteger d b x))
      (List.replicate d 0) = x := by
  have hlt := transposeToHilbertInteger_lt d b x hsz
  have h31 := two_pow_le_of_le_31 hsz
  apply ext_getD
  · rw [length_hilbertIntegerToTranspose, List.length_replicate, hlen]
  · intro i hi
    rw [length_hilbertIntegerToTranspose, List.length_replicate] at hi
    rw [getD_hilbertIntegerToTranspose d b _ _ (by simp) (le_of_mul_le_31 (by omega) hsz) i hi,
      toULong_ulongToInt (by omega), transposeToHilbertInteger_eq d b x hsz]
    refine Eq.trans (bitsSum_congr ?_) (bitsSum_testBit (hx i))
    intro r hr
    unfold axisBit
    rw [testBit_bitsSum]
    have h1 := axis_index_lt hi hr
    have hcomm : d * b = b * d := Nat.mul_comm d b
    have hn : b * d - 1 - (i + (b - 1 - r) * d) < d * b := by omega
    rw [decide_eq_true hn, Bool.true_and]
    unfold indexBit
    have e : d * b - 1 - (b * d - 1 - (i + (b - 1 - r) * d)) = i + (b - 1 - r) * d := by omega
    rw [e, Nat.add_mul_mod_self_right, Nat.add_mul_div_right _ _ (by omega : 0 < d),
      Nat.mod_eq_of_lt hi, Nat.div_eq_of_lt hi, Nat.zero_add]
    have e2 : b - 1 - (b - 1 - r) = r := by omega
    rw [e2]

theorem transposeToHilbertInteger_hilbertIntegerToTranspose (d b h : Nat)
    (hd : 0 < d) (hsz : d * b ≤ 31) (hh : h < 2 ^ (d * b)) :
    transposeToHilbertInteger d b
      (hilbertIntegerToTranspose d b (h : Int) (List.replicate d 0)) = h := by
  have h31 := two_pow_le_of_le_31 hsz
  rw [transposeToHilbertInteger_eq d b _ hsz]
  refine Eq.trans (bitsSum_congr ?_) (bitsSum_testBit hh)
  intro n hn
  unfold indexBit
  have hcomm : d * b = b * d := Nat.mul_comm d b
  generalize hat : d * b - 1 - n = a
  have hat2 : a < d * b := by omega
  have hmod : a % d < d := Nat.mod_lt _ hd
  have hdiv : a / d < b := Nat.div_lt_of_lt_mul hat2
  have e2 : a % d + a / d * d = a := by
    rw [Nat.mul_comm]; exact Nat.mod_add_div _ _
  generalize a / d = q at hdiv e2 ⊢
  generalize a % d = m at hmod e2 ⊢
  rw [getD_hilbertIntegerToTranspose d b _ _ (by simp) (le_of_mul_le_31 hd hsz) _ hmod,
    toULong_natCast (by omega), testBit_bitsSum]
  have hr : b - 1 - q < b := by omega
  rw [decide_eq_true hr, Bool.true_and]
  unfold axisBit
  have e1 : b - 1 - (b - 1 - q) = q := by omega
  rw [e1, e2]
  congr 1
  omega

/-! ## The correction term -/

theorem correctionLoop_eq (y k fuel t : Nat) (hk : k ≤ fuel) :
    correctionLoop y fuel (2 ^ k) t = t ^^^ corr y k := by
  induction k generalizing fuel t with
  | zero =>
    cases fuel with
    | zero => simp [correctionLoop, corr]
    | succ f => simp [correctionLoop, corr]
  | succ k ih =>
    cases fuel with
    | zero => omega
    | succ f =>
      have h1 : 2 ^ (k + 1) > 1 := Nat.one_lt_two_pow (by omega)
      have h2 : 2 ^ (k + 1) >>> 1 = 2 ^ k := by
        rw [Nat.shiftRight_eq_div_pow, pow_succ]; simp
      rw [correctionLoop, if_pos h1, h2, ih f _ (by omega), corr]
      simp only [and_two_pow_ne_zero_iff]
      by_cases hb : y.testBit (k + 1) = true
      · simp only [hb, if_true]
        rw [Nat.xor_assoc, Nat.xor_comm (corr y k)]
      · simp only [hb]
        simp

theorem testBit_corrTerm (c : Bool) (n j : Nat) :
    (if c = true then 2 ^ n - 1 else 0).testBit j = (c && decide (j < n)) := by
  cases c <;> simp

theorem testBit_corr_succ (y k j : Nat) :
    (corr y k).testBit j
      = xor ((corr y k).testBit (j + 1)) (y.testBit (j + 1) && decide (j < k)) := by
  induction k with
  | zero => simp [corr]
  | succ k ih =>
    rw [corr, Nat.testBit_xor, Nat.testBit_xor, testBit_corrTerm, testBit_corrTerm, ih]
    by_cases h1 : j < k
    · have h2 : j < k + 1 := by omega
      have h3 : j + 1 < k + 1 := by omega
      simp only [h1, h2, h3, decide_True, Bool.and_true]
      cases (corr y k).testBit (j + 1) <;> cases y.testBit (j + 1) <;> cases y.testBit (k + 1) <;> rfl
    · by_cases h2 : j = k
      · subst h2
        simp
      · have h3 : ¬ j < k + 1 := by omega
        have h4 : ¬ j + 1 < k + 1 := by omega
        simp [h1, h3, h4]

theorem corr_shift (y b : Nat) (hy : y < 2 ^ b) :
    (y ^^^ corr y (b - 1)) >>> 1 = corr y (b - 1) := by
  apply Nat.eq_of_testBit_eq
  intro j
  rw [Nat.testBit_shiftRight, Nat.testBit_xor, testBit_corr_succ y (b - 1) j, Nat.add_comm 1 j]
  by_cases h1 : j < b - 1
  · simp only [h1, decide_True, Bool.and_true]
    cases (corr y (b - 1)).testBit (j + 1) <;> cases y.testBit (j + 1) <;> rfl
  · have hz : y.testBit (j + 1) = false :=
      Nat.testBit_lt_two_pow
        (Nat.lt_of_lt_of_le hy (Nat.pow_le_pow_right (by norm_num) (by omega)))
    simp [h1, hz]

theorem testBit_corr_gray (z k j : Nat) :
    (corr (z ^^^ z >>> 1) k).testBit j
      = (decide (j < k) && xor (z.testBit (j + 1)) (z.testBit (k + 1))) := by
  induction k with
  | zero => simp [corr]
  | succ k ih =>
    rw [corr, Nat.testBit_xor, testBit_corrTerm, ih, Nat.testBit_xor, Nat.testBit_shiftRight,
      Nat.add_comm 1 (k + 1)]
    by_cases h1 : j < k
    · have h2 : j < k + 1 := by omega
      simp only [h1, h2, decide_True, Bool.and_true, Bool.true_and]
      cases z.testBit (j + 1) <;> cases z.testBit (k + 1) <;> cases z.testBit (k + 1 + 1) <;> rfl
    · by_cases h2 : j = k
      · subst h2
        simp
      · have h3 : ¬ j < k + 1 := by omega
        simp [h1, h3]

theorem corr_gray (z b : Nat) (hb : 0 < b) (hz : z < 2 ^ b) :
    corr (z ^^^ z >>> 1) (b - 1) = z >>> 1 := by
  apply Nat.eq_of_testBit_eq
  intro j
  rw [testBit_corr_gray, Nat.testBit_shiftRight, Nat.add_comm 1 j]
  have hzb : z.testBit (b - 1 + 1) = false :=
    Nat.testBit_lt_two_pow (by rw [Nat.sub_add_cancel hb]; exact hz)
  by_cases h1 : j < b - 1
  · simp [h1, hzb]
  · have hz2 : z.testBit (j + 1) = false :=
      Nat.testBit_lt_two_pow
        (Nat.lt_of_lt_of_le hz (Nat.pow_le_pow_right (by norm_num) (by omega)))
    simp [h1, hz2]

/-! ## The Gray steps in closed form -/

theorem getD_foldl_set_self (F : Nat → Nat) (n : Nat) (x : List Nat) (hn : n ≤ x.length)
    (j : Nat) :
    ((List.range n).foldl (fun tr i => tr.set i (F (tr.getD i 0))) x).getD j 0
      = if j < n then F (x.getD j 0) else x.getD j 0 := by
  induction n generalizing j with
  | zero => simp
  | succ n ih =>
    rw [List.range_succ, List.foldl_append]
    simp only [List.foldl_cons, List.foldl_nil]
    rw [getD_set, ih (by omega), ih (by omega)]
    have hlen : ((List.range n).foldl (fun tr i => tr.set i (F (tr.getD i 0))) x).length
        = x.length := length_foldl_set (fun tr i => (i, F (tr.getD i 0))) _ _
    rw [hlen]
    by_cases hj : n = j
    · subst hj
      simp [show n < x.length by omega]
    · by_cases hjn : j < n
      · simp [hj, hjn, show j < n + 1 by omega]
      · simp [hj, hjn, show ¬ j < n + 1 by omega]

theorem length_xorAll (d t : Nat) (x : List Nat) : (xorAll d t x).length = x.length :=
  length_foldl_set (fun tr i => (i, tr.getD i 0 ^^^ t)) _ _

theorem getD_xorAll (d t : Nat) (x : List Nat) (hd : d ≤ x.length) (j : Nat) :
    (xorAll d t x).getD j 0 = if j < d then x.getD j 0 ^^^ t else x.getD j 0 :=
  getD_foldl_set_self (fun v => v ^^^ t) d x hd j

theorem length_grayEncode (d : Nat) (x : List Nat) : (grayEncode d x).length = x.length :=
  length_foldl_set (fun tr i => (i, tr.getD i 0 ^^^ tr.getD (i - 1) 0)) _ _

theorem grayEncode_aux (n : Nat) (x : List Nat) (hn : n < x.length) (j : Nat) :
    (((List.range n).map (fun k => k + 1)).foldl
        (fun x i => x.set i (x.getD i 0 ^^^ x.getD (i - 1) 0)) x).getD j 0
      = if j ≤ n then prefixXor x j else x.getD j 0 := by
  induction n generalizing j with
  | zero =>
    cases j with
    | zero => simp [prefixXor]
    | succ j => simp
  | succ n ih =>
    rw [List.range_succ, List.map_append, List.foldl_append]
    simp only [List.map_cons, List.map_nil, List.foldl_cons, List.foldl_nil]
    have hlen : (((List.range n).map (fun k => k + 1)).foldl
        (fun x i => x.set i (x.getD i 0 ^^^ x.getD (i - 1) 0)) x).length = x.length :=
      length_foldl_set (fun tr i => (i, tr.getD i 0 ^^^ tr.getD (i - 1) 0)) _ _
    rw [getD_set, hlen, ih (by omega), ih (by omega), Nat.add_sub_cancel, ih (by omega)]
    by_cases hj : n + 1 = j
    · subst hj
      simp only [true_and, hn, if_true, le_refl, Nat.le_succ, if_true]
      rw [if_neg (by omega), prefixXor, Nat.xor_comm]
    · by_cases hjn : j ≤ n
      · simp [hj, hjn, show j ≤ n + 1 by omega]
      · simp [hj, hjn, show ¬ j ≤ n + 1 by omega]

theorem getD_grayEncode (d : Nat) (x : List Nat) (hd : d ≤ x.length) (j : Nat) :
    (grayEncode d x).getD j 0 = if j < d then prefixXor x j else x.getD j 0 := by
  unfold grayEncode upFrom1
  cases d with
  | zero => simp
  | succ d =>
    rw [Nat.add_sub_cancel, grayEncode_aux d x (by omega) j]
    by_cases hj : j ≤ d
    · simp [hj, show j < d + 1 by omega]
    · simp [hj, show ¬ j < d + 1 by omega]

theorem grayDecode_aux (n : Nat) (x : List Nat) (hn : n < x.length) (j : Nat) :
    (((List.range n).map (fun k => k + 1)).reverse.foldl
        (fun x i => x.set i (x.getD i 0 ^^^ x.getD (i - 1) 0)) x).getD j 0
      = if 1 ≤ j ∧ j ≤ n then x.getD j 0 ^^^ x.getD (j - 1) 0 else x.getD j 0 := by
  induction n generalizing x j with
  | zero =>
    simp only [List.range_zero, List.map_nil, List.reverse_nil, List.foldl_nil]
    rw [if_neg (by omega)]
  | succ n ih =>
    rw [List.range_succ, List.map_append, List.reverse_append]
    simp only [List.map_cons, List.map_nil, List.reverse_cons, List.reverse_nil, List.nil_append,
      List.singleton_append, List.foldl_cons]
    rw [ih _ (by rw [List.length_set]; omega), getD_set, getD_set, Nat.add_sub_cancel]
    by_cases hj : n + 1 = j
    · subst hj
      rw [if_neg (by omega), if_pos ⟨rfl, hn⟩, if_pos ⟨by omega, le_refl _⟩, Nat.add_sub_cancel]
    · by_cases h1 : 1 ≤ j ∧ j ≤ n
      · rw [if_pos h1, if_neg (by omega), if_neg (by omega), if_pos ⟨h1.1, by omega⟩]
      · rw [if_neg h1, if_neg (by omega), if_neg (by omega)]

theorem length_grayDecode (d : Nat) (x : List Nat) : (grayDecode d x).length = x.length := by
  unfold grayDecode
  simp only [List.length_set]
  exact length_foldl_set (fun tr i => (i, tr.getD i 0 ^^^ tr.getD (i - 1) 0)) _ _

theorem getD_grayDecode (d : Nat) (x : List Nat) (hd0 : 0 < d) (hd : d ≤ x.length) (j : Nat) :
    (grayDecode d x).getD j 0
      = if j = 0 then x.getD 0 0 ^^^ (x.getD (d - 1) 0 >>> 1)
        else if j < d then x.getD j 0 ^^^ x.getD (j - 1) 0 else x.getD j 0 := by
  unfold grayDecode upFrom1
  simp only
  have hlen : (((List.range (d - 1)).map (fun k => k + 1)).reverse.foldl
        (fun x i => x.set i (x.getD i 0 ^^^ x.getD (i - 1) 0)) x).length = x.length :=
    length_foldl_set (fun tr i => (i, tr.getD i 0 ^^^ tr.getD (i - 1) 0)) _ _
  rw [getD_set, hlen, grayDecode_aux (d - 1) x (by omega), grayDecode_aux (d - 1) x (by omega)]
  by_cases hj : j = 0
  · subst hj
    rw [if_pos ⟨rfl, by omega⟩, if_neg (by omega), if_pos rfl]
  · rw [if_neg (by omega), if_neg hj]
    by_cases h1 : j < d
    · rw [if_pos ⟨by omega, by omega⟩, if_pos h1]
    · rw [if_neg (by omega), if_neg h1]

/-! ## The Gray steps are mutually inverse -/

theorem xor_xor_cancel (a t : Nat) : a ^^^ t ^^^ t = a := by
  rw [Nat.xor_assoc, Nat.xor_self, Nat.xor_zero]

theorem xor_xor_xor_cancel (a c t : Nat) : (a ^^^ t) ^^^ (c ^^^ t) = a ^^^ c := by
  apply Nat.eq_of_testBit_eq
  intro i
  simp only [Nat.testBit_xor]
  cases a.testBit i <;> cases c.testBit i <;> cases t.testBit i <;> rfl

theorem xor_self_left_cancel (a c : Nat) : (a ^^^ c) ^^^ a = c := by
  rw [Nat.xor_comm a c, xor_xor_cancel]

theorem corr_lt (y k : Nat) : corr y k < 2 ^ k := by
  induction k with
  | zero => simp [corr]
  | succ k ih =>
    rw [corr]
    apply Nat.xor_lt_two_pow
    · exact Nat.lt_of_lt_of_le ih (Nat.pow_le_pow_right (by norm_num) (by omega))
    · have := Nat.two_pow_pos (k + 1)
      split <;> omega

theorem prefixXor_lt {b : Nat} {x : List Nat} (hx : Bounded b x) (i : Nat) :
    prefixXor x i < 2 ^ b := by
  induction i with
  | zero => exact hx 0
  | succ i ih => exact Nat.xor_lt_two_pow ih (hx (i + 1))

theorem bounded_grayEncode {b d : Nat} {x : List Nat} (hd : d ≤ x.length) (hx : Bounded b x) :
    Bounded b (grayEncode d x) := by
  intro j
  rw [getD_grayEncode d x hd]
  split
  · exact prefixXor_lt hx j
  · exact hx j

theorem bounded_xorAll {b d t : Nat} {x : List Nat} (hd : d ≤ x.length) (ht : t < 2 ^ b)
    (hx : Bounded b x) : Bounded b (xorAll d t x) := by
  intro j
  rw [getD_xorAll d t x hd]
  split
  · exact Nat.xor_lt_two_pow (hx j) ht
  · exact hx j

theorem shiftRight_one_lt {b z : Nat} (hz : z < 2 ^ b) : z >>> 1 < 2 ^ b := by
  rw [Nat.shiftRight_eq_div_pow]
  exact Nat.lt_of_le_of_lt (Nat.div_le_self _ _) hz

theorem bounded_grayDecode {b d : Nat} {x : List Nat} (hd0 : 0 < d) (hd : d ≤ x.length)
    (hx : Bounded b x) : Bounded b (grayDecode d x) := by
  intro j
  rw [getD_grayDecode d x hd0 hd]
  split
  · exact Nat.xor_lt_two_pow (hx 0) (shiftRight_one_lt (hx _))
  · split
    · exact Nat.xor_lt_two_pow (hx j) (hx _)
    · exact hx j

theorem grayDecode_grayEncode (d b : Nat) (x : List Nat) (hd0 : 0 < d) (hlen : x.length = d)
    (hx : Bounded b x) :
    grayDecode d (xorAll d (corr ((grayEncode d x).getD (d - 1) 0) (b - 1)) (grayEncode d x))
      = x := by
  have hge : d ≤ (grayEncode d x).length := by rw [length_grayEncode]; omega
  have hy : (grayEncode d x).getD (d - 1) 0 = prefixXor x (d - 1) := by
    rw [getD_grayEncode d x (by omega), if_pos (by omega)]
  rw [hy]
  generalize hT : corr (prefixXor x (d - 1)) (b - 1) = T
  have hshift := corr_shift (prefixXor x (d - 1)) b (prefixXor_lt hx _)
  rw [hT] at hshift
  apply ext_getD
  · rw [length_grayDecode, length_xorAll, length_grayEncode]
  · intro j hj
    rw [length_grayDecode, length_xorAll, length_grayEncode] at hj
    rw [getD_grayDecode d _ hd0 (by rw [length_xorAll]; exact hge)]
    by_cases hj0 : j = 0
    · subst hj0
      rw [if_pos rfl, getD_xorAll d _ _ hge, getD_xorAll d _ _ hge, if_pos hd0,
        if_pos (by omega), getD_grayEncode d x (by omega), getD_grayEncode d x (by omega),
        if_pos hd0, if_pos (by omega), hshift, prefixXor, xor_xor_cancel]
    · rw [if_neg hj0, if_pos (by omega), getD_xorAll d _ _ hge, getD_xorAll d _ _ hge,
        if_pos (by omega), if_pos (by omega), getD_grayEncode d x (by omega),
        getD_grayEncode d x (by omega), if_pos (by omega), if_pos (by omega),
        xor_xor_xor_cancel]
      obtain ⟨j', rfl⟩ : ∃ j', j = j' + 1 := ⟨j - 1, by omega⟩
      rw [Nat.add_sub_cancel, prefixXor, xor_self_left_cancel]

theorem prefixXor_grayDecode (d : Nat) (z : List Nat) (hd0 : 0 < d) (hlen : z.length = d)
    (j : Nat) (hj : j < d) :
    prefixXor (grayDecode d z) j = z.getD j 0 ^^^ (z.getD (d - 1) 0 >>> 1) := by
  induction j with
  | zero => rw [prefixXor, getD_grayDecode d z hd0 (by omega), if_pos rfl]
  | succ j ih =>
    rw [prefixXor, ih (by omega), getD_grayDecode d z hd0 (by omega), if_neg (by omega),
      if_pos hj, Nat.add_sub_cancel]
    apply Nat.eq_of_testBit_eq
    intro i
    simp only [Nat.testBit_xor]
    cases (z.getD j 0).testBit i <;> cases (z.getD (j + 1) 0).testBit i <;>
      cases (z.getD (d - 1) 0 >>> 1).testBit i <;> rfl

theorem grayEncode_grayDecode (d b : Nat) (z : List Nat) (hd0 : 0 < d) (hb : 0 < b)
    (hlen : z.length = d) (hz : Bounded b z) :
    xorAll d (corr ((grayEncode d (grayDecode d z)).getD (d - 1) 0) (b - 1))
      (grayEncode d (grayDecode d z)) = z := by
  have hgd : d ≤ (grayDecode d z).length := by rw [length_grayDecode]; omega
  have hge : d ≤ (grayEncode d (grayDecode d z)).length := by rw [length_grayEncode]; exact hgd
  have hy : (grayEncode d (grayDecode d z)).getD (d - 1) 0
      = z.getD (d - 1) 0 ^^^ (z.getD (d - 1) 0 >>> 1) := by
    rw [getD_grayEncode d _ hgd, if_pos (by omega),
      prefixXor_grayDecode d z hd0 hlen _ (by omega)]
  rw [hy, corr_gray _ b hb (hz _)]
  apply ext_getD
  · rw [length_xorAll, length_grayEncode, length_grayDecode]
  · intro j hj
    rw [length_xorAll, length_grayEncode, length_grayDecode] at hj
    rw [getD_xorAll d _ _ hge, if_pos (by omega), getD_grayEncode d _ hgd, if_pos (by omega),
      prefixXor_grayDecode d z hd0 hlen _ (by omega), xor_xor_cancel]

/-! ## The conversions in closed form -/

theorem hilbertNumberFromPoint_eq (d b : Nat) (p : List Nat) (hb : b ≤ 31) :
    hilbertNumberFromPoint d b p = transposeToHilbertInteger d b (encodeTranspose d b p) := by
  unfold hilbertNumberFromPoint encodeTranspose
  have h30 := two_pow_le_of_le_30 (show b - 1 ≤ 30 by omega)
  have hm : toULong (shlInt 1 (b - 1)) = 2 ^ (b - 1) := by
    rw [shlInt_one (by omega), toULong_natCast (by omega)]
  simp only [hm]
  rw [encodeLoop_eq d (b - 1) 64 p (by omega), correctionLoop_eq _ (b - 1) 64 0 (by omega),
    Nat.zero_xor]

theorem pointFromHilbertNumber_eq (d b fuel : Nat) (h : Int) (hb1 : 1 ≤ b) (hb : b ≤ 30)
    (hf : b - 1 ≤ fuel) :
    pointFromHilbertNumber d b fuel h
      = some (decodeTranspose d b (hilbertIntegerToTranspose d b h (List.replicate d 0))) := by
  unfold pointFromHilbertNumber decodeTranspose
  have hz : shlInt 2 (b - 1) = ((2 ^ b : Nat) : Int) := by
    rw [shlInt_two (by omega), Nat.sub_add_cancel hb1]
  simp only [hz]
  have h2 : (2 : Nat) = 2 ^ 1 := by norm_num
  conv_lhs => rw [h2]
  exact decodeLoop_eq d b (b - 1) 1 fuel _ (by omega) hf

theorem length_encodeTranspose (d b : Nat) (p : List Nat) :
    (encodeTranspose d b p).length = p.length := by
  unfold encodeTranspose
  rw [length_xorAll, length_grayEncode, length_encodePasses]

theorem bounded_encodeTranspose (d b : Nat) (p : List Nat) (hb : 0 < b) (hlen : d ≤ p.length)
    (hp : Bounded b p) : Bounded b (encodeTranspose d b p) := by
  unfold encodeTranspose
  have h1 : Bounded b (encodePasses d (b - 1) p) := bounded_encodePasses (by omega) d hp
  have h2 : Bounded b (grayEncode d (encodePasses d (b - 1) p)) :=
    bounded_grayEncode (by rw [length_encodePasses]; exact hlen) h1
  apply bounded_xorAll (by rw [length_grayEncode, length_encodePasses]; exact hlen) _ h2
  exact Nat.lt_of_lt_of_le (corr_lt _ _) (Nat.pow_le_pow_right (by norm_num) (by omega))

theorem length_decodeTranspose (d b : Nat) (x : List Nat) :
    (decodeTranspose d b x).length = x.length := by
  unfold decodeTranspose
  rw [length_decodePasses, length_grayDecode]

theorem bounded_decodeTranspose (d b : Nat) (x : List Nat) (hd0 : 0 < d) (hb : 0 < b)
    (hlen : d ≤ x.length) (hx : Bounded b x) : Bounded b (decodeTranspose d b x) := by
  unfold decodeTranspose
  exact bounded_decodePasses d (b - 1) 1 (by omega) (bounded_grayDecode hd0 hlen hx)

theorem decodeTranspose_encodeTranspose (d b : Nat) (p : List Nat) (hd0 : 0 < d) (hb : 0 < b)
    (hlen : p.length = d) (hp : Bounded b p) :
    decodeTranspose d b (encodeTranspose d b p) = p := by
  unfold decodeTranspose encodeTranspose
  rw [grayDecode_grayEncode d b _ hd0 (by rw [length_encodePasses]; exact hlen)
    (bounded_encodePasses (by omega) d hp)]
  exact decodePasses_encodePasses d (b - 1) p (by omega)

theorem encodeTranspose_decodeTranspose (d b : Nat) (x : List Nat) (hd0 : 0 < d) (hb : 0 < b)
    (hlen : x.length = d) (hx : Bounded b x) :
    encodeTranspose d b (decodeTranspose d b x) = x := by
  unfold decodeTranspose encodeTranspose
  rw [encodePasses_decodePasses d (b - 1) _ (by rw [length_grayDecode]; omega)]
  exact grayEncode_grayDecode d b x hd0 hb hlen hx

theorem bounded_of_forall_mem {b : Nat} {p : List Nat} (hp : ∀ c ∈ p, c < 2 ^ b) :
    Bounded b p := by
  intro i
  by_cases hi : i < p.length
  · rw [List.getD_eq_getElem _ _ hi]
    exact hp _ (List.getElem_mem hi)
  · rw [getD_of_length_le p i (by omega)]
    exact Nat.two_pow_pos b

theorem forall_mem_of_bounded {b : Nat} {p : List Nat} (hp : Bounded b p) :
    ∀ c ∈ p, c < 2 ^ b := by
  intro c hc
  obtain ⟨i, hi, rfl⟩ := List.getElem_of_mem hc
  have := hp i
  rwa [List.getD_eq_getElem _ _ hi] at this

theorem bounded_hilbertIntegerToTranspose (d b : Nat) (h : Int) (hb : b ≤ 31) :
    Bounded b (hilbertIntegerToTranspose d b h (List.replicate d 0)) := by
  intro i
  by_cases hi : i < d
  · rw [getD_hilbertIntegerToTranspose d b h _ (by simp) hb i hi]
    exact bitsSum_lt _ _
  · rw [getD_of_length_le _ _ (by rw [length_hilbertIntegerToTranspose]; simp; omega)]
    exact Nat.two_pow_pos b

/-! ## Round trips of the two conversions -/

theorem roundtrip_point (d b fuel : Nat) (p : List Nat) (hd : 1 ≤ d) (hb1 : 1 ≤ b) (hb30 : b ≤ 30)
    (hsz : d * b ≤ 31) (hlen : p.length = d) (hp : Bounded b p) (hfuel : b - 1 ≤ fuel) :
    pointFromHilbertNumber d b fuel (ulongToInt (hilbertNumberFromPoint d b p)) = some p := by
  rw [pointFromHilbertNumber_eq d b fuel _ hb1 hb30 hfuel,
    hilbertNumberFromPoint_eq d b p (by omega),
    hilbertIntegerToTranspose_transposeToHilbertInteger d b _ hsz
      (by rw [length_encodeTranspose]; exact hlen)
      (bounded_encodeTranspose d b p hb1 (by omega) hp),
    decodeTranspose_encodeTranspose d b p hd hb1 hlen hp]

theorem decoded_point (d b fuel : Nat) (h : Int) (hd : 1 ≤ d) (hb1 : 1 ≤ b) (hb30 : b ≤ 30)
    (hfuel : b - 1 ≤ fuel) :
    ∃ p, pointFromHilbertNumber d b fuel h = some p ∧ p.length = d ∧ Bounded b p := by
  refine ⟨_, pointFromHilbertNumber_eq d b fuel h hb1 hb30 hfuel, ?_, ?_⟩
  · rw [length_decodeTranspose, length_hilbertIntegerToTranspose, List.length_replicate]
  · exact bounded_decodeTranspose d b _ hd hb1
      (by rw [length_hilbertIntegerToTranspose, List.length_replicate])
      (bounded_hilbertIntegerToTranspose d b h (by omega))

theorem roundtrip_index (d b fuel i : Nat) (hd : 1 ≤ d) (hb1 : 1 ≤ b) (hb30 : b ≤ 30)
    (hsz : d * b ≤ 31) (hi : i < 2 ^ (d * b)) (hfuel : b - 1 ≤ fuel) :
    ∃ p, pointFromHilbertNumber d b fuel (i : Int) = some p ∧ p.length = d ∧ Bounded b p ∧
      hilbertNumberFromPoint d b p = i := by
  refine ⟨_, pointFromHilbertNumber_eq d b fuel _ hb1 hb30 hfuel, ?_, ?_, ?_⟩
  · rw [length_decodeTranspose, length_hilbertIntegerToTranspose, List.length_replicate]
  · exact bounded_decodeTranspose d b _ hd hb1
      (by rw [length_hilbertIntegerToTranspose, List.length_replicate])
      (bounded_hilbertIntegerToTranspose d b _ (by omega))
  · rw [hilbertNumberFromPoint_eq d b _ (by omega),
      encodeTranspose_decodeTranspose d b _ hd hb1
        (by rw [length_hilbertIntegerToTranspose, List.length_replicate])
        (bounded_hilbertIntegerToTranspose d b _ (by omega)),
      transposeToHilbertInteger_hilbertIntegerToTranspose d b i hd hsz hi]

theorem hilbertNumberFromPoint_lt (d b : Nat) (p : List Nat) (hd : 1 ≤ d) (hsz : d * b ≤ 31) :
    hilbertNumberFromPoint d b p < 2 ^ (d * b) := by
  rw [hilbertNumberFromPoint_eq d b p (le_of_mul_le_31 hd hsz)]
  exact transposeToHilbertInteger_lt d b _ hsz

/-! ## Dimension one -/

theorem hilbertIntegerToTranspose_one (b x : Nat) (hb : b ≤ 31) (hx : x < 2 ^ b) :
    hilbertIntegerToTranspose 1 b (x : Int) (List.replicate 1 0) = [x] := by
  have h31 := two_pow_le_of_le_31 hb
  apply ext_getD
  · rw [length_hilbertIntegerToTranspose]; rfl
  · intro i hi
    rw [length_hilbertIntegerToTranspose, List.length_replicate] at hi
    have hi0 : i = 0 := by omega
    subst hi0
    rw [getD_hilbertIntegerToTranspose 1 b _ _ (by simp) hb 0 (by omega),
      toULong_natCast (by omega)]
    refine Eq.trans (bitsSum_congr ?_) (bitsSum_testBit hx)
    intro r hr
    unfold axisBit
    congr 1
    omega

theorem passDown_one (k v : Nat) :
    passDown 1 k [v] = [if v.testBit k then flipLow k v else v] := by
  unfold passDown
  have hr : List.range 1 = [0] := rfl
  simp only [hr, List.reverse_singleton, List.foldl_cons, List.foldl_nil]
  rw [exchangeStep_eq]
  by_cases hb : v.testBit k = true
  · simp [hb]
  · simp [hb, mixLow_self]

theorem decodePasses_one (g n k : Nat) :
    decodePasses 1 n (k + 1) [g ^^^ corr g k] = [g ^^^ corr g (k + n)] := by
  induction n generalizing k with
  | zero => rfl
  | succ n ih =>
    rw [decodePasses, passDown_one]
    have hbit : (g ^^^ corr g k).testBit (k + 1) = g.testBit (k + 1) := by
      rw [Nat.testBit_xor]
      have : (corr g k).testBit (k + 1) = false :=
        Nat.testBit_lt_two_pow
          (Nat.lt_of_lt_of_le (corr_lt g k) (Nat.pow_le_pow_right (by norm_num) (by omega)))
      rw [this]
      simp
    have hstep : (if (g ^^^ corr g k).testBit (k + 1) = true then flipLow (k + 1) (g ^^^ corr g k)
        else g ^^^ corr g k) = g ^^^ corr g (k + 1) := by
      rw [hbit, corr]
      by_cases hb : g.testBit (k + 1) = true
      · simp only [hb, if_true, flipLow, Nat.xor_assoc]
      · simp only [hb, Nat.xor_zero]
        simp
    rw [hstep, ih (k + 1)]
    have : k + 1 + n = k + (n + 1) := by omega
    rw [this]

theorem decodeTranspose_one (b x : Nat) (hb : 0 < b) (hx : x < 2 ^ b) :
    decodeTranspose 1 b [x] = [x] := by
  unfold decodeTranspose
  have hg : grayDecode 1 [x] = [x ^^^ x >>> 1] := by
    apply ext_getD
    · rw [length_grayDecode]; rfl
    · intro i hi
      rw [length_grayDecode] at hi
      have hi0 : i = 0 := by simpa using hi
      subst hi0
      rw [getD_grayDecode 1 [x] (by omega) (by simp)]
      simp
  rw [hg]
  have h := decodePasses_one (x ^^^ x >>> 1) (b - 1) 0
  rw [corr, Nat.xor_zero, Nat.zero_add, Nat.zero_add, corr_gray x b hb hx] at h
  rw [h]
  congr 1
  rw [Nat.xor_assoc, Nat.xor_self, Nat.xor_zero]

theorem hilbertNumberFromPoint_one (b x : Nat) (hb1 : 1 ≤ b) (hb30 : b ≤ 30) (hx : x < 2 ^ b) :
    hilbertNumberFromPoint 1 b [x] = x := by
  have hbx : Bounded b [x] := bounded_of_forall_mem (by simpa using hx)
  have h1 := encodeTranspose_decodeTranspose 1 b [x] (by omega) hb1 rfl hbx
  rw [decodeTranspose_one b x hb1 hx] at h1
  rw [hilbertNumberFromPoint_eq 1 b _ (by omega), h1]
  have h2 := transposeToHilbertInteger_hilbertIntegerToTranspose 1 b x (by omega) (by omega)
    (by rw [Nat.one_mul]; exact hx)
  rwa [hilbertIntegerToTranspose_one b x (by omega) hx] at h2

theorem encodePasses_one (b x : Nat) (hb : 0 < b) (hx : x < 2 ^ b) :
    encodePasses 1 (b - 1) [x] = [x ^^^ x >>> 1] := by
  have h := decodePasses_one (x ^^^ x >>> 1) (b - 1) 0
  rw [corr, Nat.xor_zero, Nat.zero_add, Nat.zero_add, corr_gray x b hb hx, Nat.xor_assoc,
    Nat.xor_self, Nat.xor_zero] at h
  have h2 := encodePasses_decodePasses 1 (b - 1) [x ^^^ x >>> 1] (by simp)
  rwa [h] at h2

/-! ## Sorting -/

theorem decodeLoop_none (d b n k fuel : Nat) (x : List Nat) (hb : k + n = b) (hf : fuel < n) :
    decodeLoop d ((2 ^ b : Nat) : Int) fuel (2 ^ k) x = none := by
  induction fuel generalizing n k x with
  | zero =>
    have hne : ¬ (((2 ^ k : Nat) : Int) = ((2 ^ b : Nat) : Int)) := by
      rw [two_pow_cast_eq_iff]; omega
    rw [decodeLoop, if_neg hne]
  | succ f ih =>
    have hne : ¬ (((2 ^ k : Nat) : Int) = ((2 ^ b : Nat) : Int)) := by
      rw [two_pow_cast_eq_iff]; omega
    have h2 : 2 ^ k <<< 1 = 2 ^ (k + 1) := by
      rw [Nat.shiftLeft_eq, pow_one, pow_succ]
    rw [decodeLoop, if_neg hne, h2]
    exact ih (n - 1) (k + 1) _ (by omega) (by omega)

theorem pointFromHilbertNumber_none (d b fuel : Nat) (h : Int) (hb1 : 1 ≤ b) (hb : b ≤ 30)
    (hf : fuel < b - 1) : pointFromHilbertNumber d b fuel h = none := by
  unfold pointFromHilbertNumber
  have hz : shlInt 2 (b - 1) = ((2 ^ b : Nat) : Int) := by
    rw [shlInt_two (by omega), Nat.sub_add_cancel hb1]
  simp only [hz]
  have h2 : (2 : Nat) = 2 ^ 1 := by norm_num
  conv_lhs => rw [h2]
  exact decodeLoop_none d b (b - 1) 1 fuel _ (by omega) hf

/-! ## Sign extension of the `int` parameter -/

theorem testBit_two_pow_mul_add (k q r j : Nat) (hr : r < 2 ^ k) :
    (2 ^ k * q + r).testBit j = if j < k then r.testBit j else q.testBit (j - k) :=
  Nat.testBit_mul_pow_two_add q hr j

theorem testBit_div_two_pow' (a k j : Nat) : (a / 2 ^ k).testBit j = a.testBit (k + j) := by
  rw [← Nat.shiftRight_eq_div_pow, Nat.testBit_shiftRight]

theorem mixLow_eq (k a b : Nat) : mixLow k a b = 2 ^ k * (a / 2 ^ k) + b % 2 ^ k := by
  apply Nat.eq_of_testBit_eq
  intro j
  rw [testBit_mixLow, testBit_two_pow_mul_add k _ _ j (Nat.mod_lt _ (Nat.two_pow_pos k)),
    Nat.testBit_mod_two_pow, testBit_div_two_pow']
  by_cases h : j < k
  · simp [h]
  · simp [h, show k + (j - k) = j by omega]

theorem flipLow_eq (k a : Nat) :
    flipLow k a = 2 ^ k * (a / 2 ^ k) + (2 ^ k - 1 - a % 2 ^ k) := by
  have hlt : a % 2 ^ k < 2 ^ k := Nat.mod_lt _ (Nat.two_pow_pos k)
  apply Nat.eq_of_testBit_eq
  intro j
  rw [testBit_flipLow, testBit_two_pow_mul_add k _ _ j (by omega), testBit_div_two_pow']
  have e : 2 ^ k - 1 - a % 2 ^ k = 2 ^ k - (a % 2 ^ k + 1) := by omega
  rw [e, Nat.testBit_two_pow_sub_succ hlt, Nat.testBit_mod_two_pow]
  by_cases h : j < k
  · simp [h]
  · simp [h, show k + (j - k) = j by omega]

theorem two_pow_mul_add_div (k q r : Nat) (hr : r < 2 ^ k) : (2 ^ k * q + r) / 2 ^ k = q := by
  rw [Nat.mul_add_div (Nat.two_pow_pos k), Nat.div_eq_of_lt hr, Nat.add_zero]

theorem two_pow_mul_add_mod (k q r : Nat) (hr : r < 2 ^ k) : (2 ^ k * q + r) % 2 ^ k = r := by
  rw [Nat.mul_add_mod, Nat.mod_eq_of_lt hr]

theorem mixLow_div (k a b : Nat) : mixLow k a b / 2 ^ k = a / 2 ^ k := by
  rw [mixLow_eq, two_pow_mul_add_div k _ _ (Nat.mod_lt _ (Nat.two_pow_pos k))]

theorem mixLow_mod (k a b : Nat) : mixLow k a b % 2 ^ k = b % 2 ^ k := by
  rw [mixLow_eq, two_pow_mul_add_mod k _ _ (Nat.mod_lt _ (Nat.two_pow_pos k))]

theorem flipLow_div (k a : Nat) : flipLow k a / 2 ^ k = a / 2 ^ k := by
  have hlt : a % 2 ^ k < 2 ^ k := Nat.mod_lt _ (Nat.two_pow_pos k)
  rw [flipLow_eq, two_pow_mul_add_div k _ _ (by omega)]

theorem flipLow_mod (k a : Nat) : flipLow k a % 2 ^ k = 2 ^ k - 1 - a % 2 ^ k := by
  have hlt : a % 2 ^ k < 2 ^ k := Nat.mod_lt _ (Nat.two_pow_pos k)
  rw [flipLow_eq, two_pow_mul_add_mod k _ _ (by omega)]

theorem mod_succ_of_div_eq {k a c : Nat} (hdiv : a / 2 ^ k = c / 2 ^ k) (h : a + 1 = c) :
    c % 2 ^ k = a % 2 ^ k + 1 := by
  have ha := Nat.div_add_mod a (2 ^ k)
  have hc := Nat.div_add_mod c (2 ^ k)
  rw [hdiv] at ha
  omega

theorem testBit_eq_of_div_eq {k a c : Nat} (hdiv : a / 2 ^ k = c / 2 ^ k) :
    a.testBit k = c.testBit k := by
  rw [Nat.testBit_to_div_mod, Nat.testBit_to_div_mod, hdiv]

theorem div_two_pow_succ_of_div_eq {k a c : Nat} (hdiv : a / 2 ^ k = c / 2 ^ k) :
    a / 2 ^ (k + 1) = c / 2 ^ (k + 1) := by
  rw [pow_succ, ← Nat.div_div_eq_div_mul, ← Nat.div_div_eq_div_mul, hdiv]

/-- Inverting the low bits maps neighbours to neighbours. -/
theorem flipLow_succ {k a c : Nat} (hdiv : a / 2 ^ k = c / 2 ^ k) (h : a + 1 = c) :
    flipLow k c + 1 = flipLow k a := by
  have hm := mod_succ_of_div_eq hdiv h
  have hlt : c % 2 ^ k < 2 ^ k := Nat.mod_lt _ (Nat.two_pow_pos k)
  rw [flipLow_eq, flipLow_eq, hdiv, hm]
  omega

/-- Replacing the low bits of a common value by those of two neighbours gives
neighbours. -/
theorem mixLow_succ {k a c : Nat} (e : Nat) (hdiv : a / 2 ^ k = c / 2 ^ k) (h : a + 1 = c) :
    mixLow k e a + 1 = mixLow k e c := by
  have hm := mod_succ_of_div_eq hdiv h
  rw [mixLow_eq, mixLow_eq, hm]
  omega

theorem mixLow_congr_high {k a c : Nat} (e : Nat) (hdiv : a / 2 ^ k = c / 2 ^ k) :
    mixLow k a e = mixLow k c e := by
  rw [mixLow_eq, mixLow_eq, hdiv]

/-! ## The passes keep lattice neighbours adjacent -/

theorem getD_step_flag (k : Nat) (x : List Nat) (i j : Nat) (hi : i < x.length)
    (hb : (x.getD i 0).testBit k = true) :
    (exchangeStep (2 ^ k) x i).getD j 0
      = if j = 0 then flipLow k (x.getD 0 0) else x.getD j 0 := by
  rw [getD_exchangeStep k x i j hi, if_pos hb]

theorem getD_step_noflag (k : Nat) (x : List Nat) (i j : Nat) (hi : i < x.length)
    (hb : (x.getD i 0).testBit k = false) :
    (exchangeStep (2 ^ k) x i).getD j 0
      = if j = i then mixLow k (x.getD i 0) (x.getD 0 0)
        else if j = 0 then mixLow k (x.getD 0 0) (x.getD i 0)
        else x.getD j 0 := by
  rw [getD_exchangeStep k x i j hi, if_neg (by rw [hb]; exact Bool.false_ne_true)]

theorem adj_symm {k : Nat} {x y : List Nat} (h : Adj k x y) : Adj k y x := by
  obtain ⟨hlen, i, hi, hoff, hdiv, hone⟩ := h
  exact ⟨hlen.symm, i, by omega, fun j hj => (hoff j hj).symm, hdiv.symm, hone.symm⟩

theorem adj_mono {k : Nat} {x y : List Nat} (h : Adj k x y) : Adj (k + 1) x y := by
  obtain ⟨hlen, i, hi, hoff, hdiv, hone⟩ := h
  exact ⟨hlen, i, hi, hoff, div_two_pow_succ_of_div_eq hdiv, hone⟩

theorem exchangeStep_adj_core (k : Nat) (x y : List Nat) (i j : Nat)
    (hlen : x.length = y.length) (hi : i < x.length) (hj : j < x.length)
    (hoff : AgreeOff i x y) (hdiv : x.getD i 0 / 2 ^ k = y.getD i 0 / 2 ^ k)
    (h1 : x.getD i 0 + 1 = y.getD i 0) :
    Adj k (exchangeStep (2 ^ k) x j) (exchangeStep (2 ^ k) y j) := by
  have hjy : j < y.length := by omega
  have hflag : (x.getD j 0).testBit k = (y.getD j 0).testBit k := by
    by_cases hji : j = i
    · subst hji; exact testBit_eq_of_div_eq hdiv
    · rw [hoff j hji]
  refine ⟨by rw [length_exchangeStep, length_exchangeStep, hlen], ?_⟩
  by_cases hb : (x.getD j 0).testBit k = true
  · -- flagged on both sides: axis 0 gets its low bits inverted
    have hby : (y.getD j 0).testBit k = true := by rw [← hflag]; exact hb
    refine ⟨i, by rw [length_exchangeStep]; exact hi, ?_, ?_, ?_⟩
    · intro l hl
      rw [getD_step_flag k x j l hj hb, getD_step_flag k y j l hjy hby]
      by_cases hl0 : l = 0
      · rw [if_pos hl0, if_pos hl0, hoff 0 (by omega)]
      · rw [if_neg hl0, if_neg hl0, hoff l hl]
    · rw [getD_step_flag k x j i hj hb, getD_step_flag k y j i hjy hby]
      by_cases hi0 : i = 0
      · subst hi0
        rw [if_pos rfl, if_pos rfl, flipLow_div, flipLow_div, hdiv]
      · rw [if_neg hi0, if_neg hi0, hdiv]
    · rw [getD_step_flag k x j i hj hb, getD_step_flag k y j i hjy hby]
      by_cases hi0 : i = 0
      · subst hi0
        rw [if_pos rfl, if_pos rfl]
        exact Or.inr (flipLow_succ hdiv h1)
      · rw [if_neg hi0, if_neg hi0]
        exact Or.inl h1
  · have hbx : (x.getD j 0).testBit k = false := by
      cases hh : (x.getD j 0).testBit k with
      | false => rfl
      | true => exact absurd hh hb
    have hby : (y.getD j 0).testBit k = false := by rw [← hflag]; exact hbx
    by_cases hji : j = i
    · subst hji
      by_cases hj0 : j = 0
      · -- the step on axis 0 itself changes nothing
        subst hj0
        refine ⟨0, by rw [length_exchangeStep]; exact hi, ?_, ?_, ?_⟩
        · intro l hl
          rw [getD_step_noflag k x 0 l hj hbx, getD_step_noflag k y 0 l hjy hby,
            if_neg hl, if_neg hl, if_neg hl, if_neg hl, hoff l hl]
        · rw [getD_step_noflag k x 0 0 hj hbx, getD_step_noflag k y 0 0 hjy hby,
            if_pos rfl, if_pos rfl, mixLow_self, mixLow_self, hdiv]
        · rw [getD_step_noflag k x 0 0 hj hbx, getD_step_noflag k y 0 0 hjy hby,
            if_pos rfl, if_pos rfl, mixLow_self, mixLow_self]
          exact Or.inl h1
      · -- the difference moves from axis j to axis 0
        have h00 : x.getD 0 0 = y.getD 0 0 := hoff 0 (by omega)
        refine ⟨0, by rw [length_exchangeStep]; omega, ?_, ?_, ?_⟩
        · intro l hl
          rw [getD_step_noflag k x j l hj hbx, getD_step_noflag k y j l hjy hby]
          by_cases hlj : l = j
          · rw [if_pos hlj, if_pos hlj, ← h00]
            exact mixLow_congr_high _ hdiv
          · rw [if_neg hlj, if_neg hlj, if_neg hl, if_neg hl, hoff l hlj]
        · rw [getD_step_noflag k x j 0 hj hbx, getD_step_noflag k y j 0 hjy hby,
            if_neg (Ne.symm hj0), if_neg (Ne.symm hj0), if_pos rfl, if_pos rfl,
            mixLow_div, mixLow_div, h00]
        · rw [getD_step_noflag k x j 0 hj hbx, getD_step_noflag k y j 0 hjy hby,
            if_neg (Ne.symm hj0), if_neg (Ne.symm hj0), if_pos rfl, if_pos rfl, ← h00]
          exact Or.inl (mixLow_succ _ hdiv h1)
    · have hjj : x.getD j 0 = y.getD j 0 := hoff j hji
      by_cases hi0 : i = 0
      · -- the difference moves from axis 0 to axis j
        subst hi0
        refine ⟨j, by rw [length_exchangeStep]; exact hj, ?_, ?_, ?_⟩
        · intro l hl
          rw [getD_step_noflag k x j l hj hbx, getD_step_noflag k y j l hjy hby,
            if_neg hl, if_neg hl]
          by_cases hl0 : l = 0
          · rw [if_pos hl0, if_pos hl0, ← hjj]
            exact mixLow_congr_high _ hdiv
          · rw [if_neg hl0, if_neg hl0, hoff l hl0]
        · rw [getD_step_noflag k x j j hj hbx, getD_step_noflag k y j j hjy hby,
            if_pos rfl, if_pos rfl, mixLow_div, mixLow_div, hjj]
        · rw [getD_step_noflag k x j j hj hbx, getD_step_noflag k y j j hjy hby,
            if_pos rfl, if_pos rfl, ← hjj]
          exact Or.inl (mixLow_succ _ hdiv h1)
      · -- the step does not touch the axis of the difference
        have h00 : x.getD 0 0 = y.getD 0 0 := hoff 0 (by omega)
        refine ⟨i, by rw [length_exchangeStep]; exact hi, ?_, ?_, ?_⟩
        · intro l hl
          rw [getD_step_noflag k x j l hj hbx, getD_step_noflag k y j l hjy hby, hjj, h00,
            hoff l hl]
        · rw [getD_step_noflag k x j i hj hbx, getD_step_noflag k y j i hjy hby,
            if_neg (Ne.symm hji), if_neg (Ne.symm hji), if_neg hi0, if_neg hi0, hdiv]
        · rw [getD_step_noflag k x j i hj hbx, getD_step_noflag k y j i hjy hby,
            if_neg (Ne.symm hji), if_neg (Ne.symm hji), if_neg hi0, if_neg hi0]
          exact Or.inl h1

theorem exchangeStep_adj (k : Nat) {x y : List Nat} (j : Nat) (hj : j < x.length)
    (h : Adj k x y) : Adj k (exchangeStep (2 ^ k) x j) (exchangeStep (2 ^ k) y j) := by
  obtain ⟨hlen, i, hi, hoff, hdiv, hone⟩ := h
  rcases hone with h1 | h1
  · exact exchangeStep_adj_core k x y i j hlen hi hj hoff hdiv h1
  · exact adj_symm (exchangeStep_adj_core k y x i j hlen.symm (by omega) (by omega)
      (fun l hl => (hoff l hl).symm) hdiv.symm h1)

theorem foldl_exchangeStep_adj (k : Nat) (l : List Nat) {x y : List Nat}
    (hl : ∀ j ∈ l, j < x.length) (h : Adj k x y) :
    Adj k (l.foldl (exchangeStep (2 ^ k)) x) (l.foldl (exchangeStep (2 ^ k)) y) := by
  induction l generalizing x y with
  | nil => exact h
  | cons j rest ih =>
    rw [List.foldl_cons, List.foldl_cons]
    apply ih
    · intro j' hj'
      rw [length_exchangeStep]
      exact hl j' (List.mem_cons_of_mem _ hj')
    · exact exchangeStep_adj k j (hl j (List.mem_cons_self _ _)) h

theorem passDown_adj (d k : Nat) {x y : List Nat} (hd : d ≤ x.length) (h : Adj k x y) :
    Adj k (passDown d k x) (passDown d k y) := by
  unfold passDown
  apply foldl_exchangeStep_adj k _ _ h
  intro j hj
  have := List.mem_range.mp (List.mem_reverse.mp hj)
  omega

theorem decodePasses_adj (d n k : Nat) {x y : List Nat} (hd : d ≤ x.length) (h : Adj k x y) :
    Adj (k + n) (decodePasses d n k x) (decodePasses d n k y) := by
  induction n generalizing k x y with
  | zero => exact h
  | succ n ih =>
    rw [decodePasses, decodePasses]
    have h1 := adj_mono (passDown_adj d k hd h)
    have h2 := ih (k + 1) (by rw [length_passDown]; exact hd) h1
    have e : k + 1 + n = k + (n + 1) := by omega
    rwa [e] at h2

/-! ## Steps that do not touch the axis of the difference -/

theorem passDown_succ (n k : Nat) (x : List Nat) :
    passDown (n + 1) k x = passDown n k (exchangeStep (2 ^ k) x n) := by
  unfold passDown
  rw [List.range_succ, List.reverse_append]
  rfl

theorem passDown_zero (k : Nat) (x : List Nat) : passDown 0 k x = x := rfl

theorem exchangeStep_agreeOff (k i0 j : Nat) (x y : List Nat) (hj : j < x.length)
    (hlen : x.length = y.length) (hji : j ≠ i0) (h0 : 0 ≠ i0) (hoff : AgreeOff i0 x y) :
    AgreeOff i0 (exchangeStep (2 ^ k) x j) (exchangeStep (2 ^ k) y j) ∧
      (exchangeStep (2 ^ k) x j).getD i0 0 = x.getD i0 0 ∧
      (exchangeStep (2 ^ k) y j).getD i0 0 = y.getD i0 0 := by
  have hjy : j < y.length := by omega
  refine ⟨?_, ?_, ?_⟩
  · intro l hl
    rw [getD_exchangeStep k x j l hj, getD_exchangeStep k y j l hjy, hoff j hji, hoff 0 h0,
      hoff l hl]
  · rw [getD_exchangeStep k x j i0 hj]
    simp only [if_neg (Ne.symm h0), if_neg (Ne.symm hji), ite_self]
  · rw [getD_exchangeStep k y j i0 hjy]
    simp only [if_neg (Ne.symm h0), if_neg (Ne.symm hji), ite_self]

theorem passDown_agreeOff (n k i0 : Nat) (x y : List Nat) (hn : n ≤ i0) (hi0 : i0 < x.length)
    (hlen : x.length = y.length) (hoff : AgreeOff i0 x y) :
    AgreeOff i0 (passDown n k x) (passDown n k y) ∧
      (passDown n k x).getD i0 0 = x.getD i0 0 ∧
      (passDown n k y).getD i0 0 = y.getD i0 0 := by
  induction n generalizing x y with
  | zero => exact ⟨hoff, rfl, rfl⟩
  | succ n ih =>
    rw [passDown_succ, passDown_succ]
    obtain ⟨h1, h2, h3⟩ := exchangeStep_agreeOff k i0 n x y (by omega) hlen (by omega)
      (by omega) hoff
    obtain ⟨h4, h5, h6⟩ := ih (exchangeStep (2 ^ k) x n) (exchangeStep (2 ^ k) y n) (by omega)
      (by rw [length_exchangeStep]; exact hi0)
      (by rw [length_exchangeStep, length_exchangeStep]; exact hlen) h1
    exact ⟨h4, by rw [h5, h2], by rw [h6, h3]⟩

/-! ## The step where the two transposes differ -/

theorem mod_two_pow_succ_of_not_testBit {a k : Nat} (hbit : a.testBit k = false) :
    a % 2 ^ (k + 1) = a % 2 ^ k := by
  rw [Nat.mod_pow_succ]
  have h : a / 2 ^ k % 2 = 0 := by
    rw [Nat.testBit_to_div_mod] at hbit
    have := Nat.mod_two_eq_zero_or_one (a / 2 ^ k)
    rcases this with h | h
    · exact h
    · rw [h] at hbit; simp at hbit
  rw [h, Nat.mul_zero, Nat.add_zero]

theorem add_div_two_pow_succ {a k c : Nat} (hbit : a.testBit k = false)
    (hc : a % 2 ^ k + c < 2 ^ (k + 1)) : (a + c) / 2 ^ (k + 1) = a / 2 ^ (k + 1) := by
  have hm := mod_two_pow_succ_of_not_testBit hbit
  have hd := Nat.div_add_mod a (2 ^ (k + 1))
  rw [hm] at hd
  have e : a + c = 2 ^ (k + 1) * (a / 2 ^ (k + 1)) + (a % 2 ^ k + c) := by omega
  rw [e, two_pow_mul_add_div (k + 1) _ _ hc]

theorem testBit_add_two_pow_self {a k : Nat} (hbit : a.testBit k = false) :
    (a + 2 ^ k).testBit k = true := by
  rw [Nat.add_comm, Nat.testBit_two_pow_add_eq, hbit]
  rfl

theorem flipLow_add_mul (k a t : Nat) :
    flipLow k (a + 2 ^ k * t) = flipLow k a + 2 ^ k * t := by
  rw [flipLow_eq, flipLow_eq, Nat.add_mul_div_left _ _ (Nat.two_pow_pos k),
    Nat.add_mul_mod_self_left, Nat.mul_add]
  omega

theorem mid_step (d k i0 : Nat) (M M' : List Nat) (hlen : M.length = d) (hlen' : M'.length = d)
    (hi0 : i0 < d) (hoff : AgreeOff i0 M M') (hbit : (M.getD i0 0).testBit k = false)
    (htog : M'.getD i0 0 = M.getD i0 0 + 2 ^ k)
    (h0 : M.getD 0 0 % 2 ^ k = 2 ^ k - 1)
    (hz : ∀ j, 0 < j → j < d → M.getD j 0 % 2 ^ k = 0) :
    AgreeOff i0 (exchangeStep (2 ^ k) M i0) (exchangeStep (2 ^ k) M' i0) ∧
      (exchangeStep (2 ^ k) M i0).getD i0 0 + 1 = (exchangeStep (2 ^ k) M' i0).getD i0 0 ∧
      (exchangeStep (2 ^ k) M i0).getD i0 0 / 2 ^ (k + 1)
        = (exchangeStep (2 ^ k) M' i0).getD i0 0 / 2 ^ (k + 1) := by
  have hbit' : (M'.getD i0 0).testBit k = true := by
    rw [htog]; exact testBit_add_two_pow_self hbit
  have hP : 0 < 2 ^ k := Nat.two_pow_pos k
  have hP2 : 2 ^ (k + 1) = 2 * 2 ^ k := by rw [pow_succ]; omega
  by_cases hi : i0 = 0
  · subst hi
    have hN : ∀ l, (exchangeStep (2 ^ k) M 0).getD l 0 = M.getD l 0 := by
      intro l
      rw [getD_step_noflag k M 0 l (by omega) hbit]
      by_cases hl : l = 0
      · subst hl; rw [if_pos rfl, mixLow_self]
      · rw [if_neg hl, if_neg hl]
    have hN' : (exchangeStep (2 ^ k) M' 0).getD 0 0 = M.getD 0 0 + 1 := by
      rw [getD_step_flag k M' 0 0 (by omega) hbit', if_pos rfl, htog]
      have e := flipLow_add_mul k (M.getD 0 0) 1
      rw [Nat.mul_one] at e
      rw [e, flipLow_eq, h0]
      have := Nat.div_add_mod (M.getD 0 0) (2 ^ k)
      omega
    refine ⟨?_, ?_, ?_⟩
    · intro l hl
      rw [hN l, getD_step_flag k M' 0 l (by omega) hbit', if_neg hl, hoff l hl]
    · rw [hN 0, hN']
    · rw [hN 0, hN']
      exact (add_div_two_pow_succ hbit (by omega)).symm
  · have hz0 := hz i0 (by omega) hi0
    have h00 : M.getD 0 0 = M'.getD 0 0 := hoff 0 (Ne.symm hi)
    have hNi : (exchangeStep (2 ^ k) M i0).getD i0 0 = M.getD i0 0 + (2 ^ k - 1) := by
      rw [getD_step_noflag k M i0 i0 (by omega) hbit, if_pos rfl, mixLow_eq, h0]
      have := Nat.div_add_mod (M.getD i0 0) (2 ^ k)
      omega
    have hNi' : (exchangeStep (2 ^ k) M' i0).getD i0 0 = M.getD i0 0 + 2 ^ k := by
      rw [getD_step_flag k M' i0 i0 (by omega) hbit', if_neg hi, htog]
    refine ⟨?_, ?_, ?_⟩
    · intro l hl
      rw [getD_step_noflag k M i0 l (by omega) hbit, getD_step_flag k M' i0 l (by omega) hbit',
        if_neg hl]
      by_cases hl0 : l = 0
      · rw [if_pos hl0, if_pos hl0, ← h00, mixLow_eq, flipLow_eq, hz0, h0]
        omega
      · rw [if_neg hl0, if_neg hl0, hoff l hl]
    · rw [hNi, hNi']
      omega
    · rw [hNi, hNi', add_div_two_pow_succ hbit (by omega),
        add_div_two_pow_succ hbit (by omega)]

/-- After the step on the differing axis, the rest of the pass and all later
passes keep the two arrays adjacent. -/
theorem tail_adj (d b r0 i0 : Nat) (M M' : List Nat) (hlen : M.length = d)
    (hlen' : M'.length = d) (hi0 : i0 < d) (hr0b : r0 < b)
    (hoff : AgreeOff i0 M M') (hbit : (M.getD i0 0).testBit r0 = false)
    (htog : M'.getD i0 0 = M.getD i0 0 + 2 ^ r0)
    (h0 : M.getD 0 0 % 2 ^ r0 = 2 ^ r0 - 1)
    (hz : ∀ j, 0 < j → j < d → M.getD j 0 % 2 ^ r0 = 0) :
    Adj b (decodePasses d (b - 1 - r0) (r0 + 1)
            (passDown i0 r0 (exchangeStep (2 ^ r0) M i0)))
          (decodePasses d (b - 1 - r0) (r0 + 1)
            (passDown i0 r0 (exchangeStep (2 ^ r0) M' i0))) := by
  obtain ⟨h1, h2, h3⟩ := mid_step d r0 i0 M M' hlen hlen' hi0 hoff hbit htog h0 hz
  obtain ⟨h4, h5, h6⟩ := passDown_agreeOff i0 r0 i0 _ _ (le_refl _)
    (by rw [length_exchangeStep]; omega)
    (by rw [length_exchangeStep, length_exchangeStep]; omega) h1
  have hadj : Adj (r0 + 1) (passDown i0 r0 (exchangeStep (2 ^ r0) M i0))
      (passDown i0 r0 (exchangeStep (2 ^ r0) M' i0)) := by
    refine ⟨by rw [length_passDown, length_passDown, length_exchangeStep, length_exchangeStep,
      hlen, hlen'], i0, by rw [length_passDown, length_exchangeStep]; omega, h4, ?_, ?_⟩
    · rw [h5, h6]; exact h3
    · rw [h5, h6]; exact Or.inl h2
  have h := decodePasses_adj d (b - 1 - r0) (r0 + 1)
    (by rw [length_passDown, length_exchangeStep]; omega) hadj
  have e : r0 + 1 + (b - 1 - r0) = b := by omega
  rwa [e] at h

/-! ## Passes that change nothing -/

theorem mixLow_eq_left_of_low {k a b : Nat} (h : ∀ r, r < k → a.testBit r = b.testBit r) :
    mixLow k a b = a := by
  apply Nat.eq_of_testBit_eq
  intro r
  rw [testBit_mixLow]
  by_cases hr : r < k
  · rw [if_pos hr, h r hr]
  · rw [if_neg hr]

theorem exchangeStep_noop (k : Nat) (x : List Nat) (j : Nat) (hj : j < x.length)
    (hb : (x.getD j 0).testBit k = false)
    (hlow : ∀ r, r < k → (x.getD 0 0).testBit r = (x.getD j 0).testBit r) :
    exchangeStep (2 ^ k) x j = x := by
  apply ext_getD (length_exchangeStep _ _ _)
  intro l _
  rw [getD_step_noflag k x j l hj hb]
  by_cases hlj : l = j
  · subst hlj
    rw [if_pos rfl]
    exact mixLow_eq_left_of_low (fun r hr => (hlow r hr).symm)
  · rw [if_neg hlj]
    by_cases hl0 : l = 0
    · subst hl0
      rw [if_pos rfl]
      exact mixLow_eq_left_of_low hlow
    · rw [if_neg hl0]

theorem passDown_noop_high (n0 n k : Nat) (x : List Nat) (h0n : n0 ≤ n) (hn : n ≤ x.length)
    (h : ∀ j, n0 ≤ j → j < n → (x.getD j 0).testBit k = false ∧
      ∀ r, r < k → (x.getD 0 0).testBit r = (x.getD j 0).testBit r) :
    passDown n k x = passDown n0 k x := by
  induction n with
  | zero =>
    have : n0 = 0 := by omega
    rw [this]
  | succ n ih =>
    by_cases hn0 : n0 = n + 1
    · rw [hn0]
    · obtain ⟨h1, h2⟩ := h n (by omega) (by omega)
      rw [passDown_succ, exchangeStep_noop k x n (by omega) h1 h2]
      exact ih (by omega) (by omega) (fun j hj1 hj2 => h j hj1 (by omega))

theorem passDown_noop (d k : Nat) (x : List Nat) (hd : d ≤ x.length) (hz : LowZero (k + 1) x) :
    passDown d k x = x := by
  rw [passDown_noop_high 0 d k x (by omega) hd, passDown_zero]
  intro j _ _
  refine ⟨hz j k (by omega), ?_⟩
  intro r hr
  rw [hz 0 r (by omega), hz j r (by omega)]

theorem decodePasses_noop (d n k m : Nat) (x : List Nat) (hd : d ≤ x.length)
    (hz : LowZero m x) (hk : k + n ≤ m) : decodePasses d n k x = x := by
  induction n generalizing k with
  | zero => rfl
  | succ n ih =>
    rw [decodePasses, passDown_noop d k x hd (fun j r hr => hz j r (by omega))]
    exact ih (k + 1) (by omega)

theorem mod_two_pow_eq_zero_of_testBit {a k : Nat} (h : ∀ r, r < k → a.testBit r = false) :
    a % 2 ^ k = 0 := by
  apply Nat.eq_of_testBit_eq
  intro r
  rw [Nat.testBit_mod_two_pow, Nat.zero_testBit]
  by_cases hr : r < k
  · simp [hr, h r hr]
  · simp [hr]

theorem mod_two_pow_eq_ones_of_testBit {a k : Nat} (h : ∀ r, r < k → a.testBit r = true) :
    a % 2 ^ k = 2 ^ k - 1 := by
  apply Nat.eq_of_testBit_eq
  intro r
  rw [Nat.testBit_mod_two_pow, Nat.testBit_two_pow_sub_one]
  by_cases hr : r < k
  · simp [hr, h r hr]
  · simp [hr]

theorem flipLow_div_high {k' k : Nat} (a : Nat) (hk : k' ≤ k) :
    flipLow k' a / 2 ^ k = a / 2 ^ k := by
  apply Nat.eq_of_testBit_eq
  intro r
  rw [testBit_div_two_pow', testBit_div_two_pow', testBit_flipLow]
  have : ¬ k + r < k' := by omega
  simp [this]

theorem mul_succ_le {r r0 : Nat} (d : Nat) (h : r < r0) : r * d + d ≤ r0 * d := by
  have := Nat.mul_le_mul_right d (show r + 1 ≤ r0 from h)
  rwa [Nat.add_mul, Nat.one_mul] at this

theorem decodePasses_split (d b r0 : Nat) (x : List Nat) (hr0 : 1 ≤ r0) (hr0b : r0 < b) :
    decodePasses d (b - 1) 1 x
      = decodePasses d (b - 1 - r0) (r0 + 1) (passDown d r0 (decodePasses d (r0 - 1) 1 x)) := by
  have e : b - 1 = (r0 - 1) + ((b - 1 - r0) + 1) := by omega
  have h := decodePasses_add d (r0 - 1) ((b - 1 - r0) + 1) 1 x
  rw [← e, decodePasses] at h
  have e2 : 1 + (r0 - 1) = r0 := by omega
  rw [e2] at h
  exact h

/-! ## Reaching the step where two consecutive transposes differ -/

theorem flipLow_zero (a : Nat) : flipLow 0 a = a := by
  simp [flipLow]

theorem reach_mid (d b r0 i0 : Nat) (X : List Nat) (hlen : X.length = d) (hi0 : i0 < d)
    (hr0 : 1 ≤ r0) (hr0b : r0 < b)
    (hlow : ∀ j r, j < d → r * d + (d - 1 - j) < r0 * d + (d - 1 - i0) →
      (X.getD j 0).testBit r = decide (r * d + (d - 1 - j) + 1 = r0 * d + (d - 1 - i0))) :
    ∃ M : List Nat, M.length = d ∧
      decodePasses d (b - 1) 1 X
        = decodePasses d (b - 1 - r0) (r0 + 1)
            (passDown i0 r0 (exchangeStep (2 ^ r0) M i0)) ∧
      (∀ j, j ≠ 0 → M.getD j 0 = X.getD j 0) ∧
      M.getD 0 0 % 2 ^ r0 = 2 ^ r0 - 1 ∧
      M.getD 0 0 / 2 ^ r0 = X.getD 0 0 / 2 ^ r0 ∧
      (∀ j, 0 < j → j < d → M.getD j 0 % 2 ^ r0 = 0) := by
  rw [decodePasses_split d b r0 X hr0 hr0b]
  by_cases hcase : i0 + 1 < d
  · -- the bit below the differing one sits on axis `i0 + 1` of the same level
    have hLZ : LowZero r0 X := by
      intro j r hr
      by_cases hj : j < d
      · have h1 := mul_succ_le d hr
        rw [hlow j r hj (by omega)]
        exact decide_eq_false (by omega)
      · rw [getD_of_length_le X j (by omega)]
        exact Nat.zero_testBit r
    have hM0 : (X.set 0 (flipLow r0 (X.getD 0 0))).getD 0 0 = flipLow r0 (X.getD 0 0) := by
      rw [getD_set, if_pos ⟨rfl, by omega⟩]
    have hMj : ∀ j, j ≠ 0 → (X.set 0 (flipLow r0 (X.getD 0 0))).getD j 0 = X.getD j 0 := by
      intro j hj
      rw [getD_set, if_neg (by omega)]
    refine ⟨X.set 0 (flipLow r0 (X.getD 0 0)), by rw [List.length_set]; exact hlen,
      ?_, hMj, ?_, ?_, ?_⟩
    · rw [decodePasses_noop d (r0 - 1) 1 r0 X (by omega) hLZ (by omega)]
      congr 1
      have hhigh : passDown d r0 X = passDown (i0 + 2) r0 X := by
        apply passDown_noop_high (i0 + 2) d r0 X (by omega) (by omega)
        intro j hj1 hj2
        refine ⟨?_, ?_⟩
        · rw [hlow j r0 hj2 (by omega)]
          exact decide_eq_false (by omega)
        · intro r hr
          rw [hLZ 0 r hr, hLZ j r hr]
      have hflag : (X.getD (i0 + 1) 0).testBit r0 = true := by
        rw [hlow (i0 + 1) r0 (by omega) (by omega)]
        exact decide_eq_true (by omega)
      rw [hhigh, passDown_succ, exchangeStep_eq, if_pos hflag, passDown_succ]
    · rw [hM0, flipLow_mod, mod_two_pow_eq_zero_of_testBit (fun r hr => hLZ 0 r hr)]
      omega
    · rw [hM0, flipLow_div]
    · intro j hj0 _
      rw [hMj j (by omega)]
      exact mod_two_pow_eq_zero_of_testBit (fun r hr => hLZ j r hr)
  · -- the bit below the differing one sits on axis 0 of the level below
    have hi0d : i0 = d - 1 := by omega
    have hd1 : d - 1 - i0 = 0 := by omega
    have hstep : (r0 - 1) * d + d = r0 * d := by
      have h := Nat.add_mul (r0 - 1) 1 d
      rw [Nat.sub_add_cancel hr0, Nat.one_mul] at h
      exact h.symm
    have hLZ : LowZero (r0 - 1) X := by
      intro j r hr
      by_cases hj : j < d
      · have h1 := mul_succ_le d hr
        rw [hlow j r hj (by omega)]
        exact decide_eq_false (by omega)
      · rw [getD_of_length_le X j (by omega)]
        exact Nat.zero_testBit r
    have hflag : (X.getD 0 0).testBit (r0 - 1) = true := by
      rw [hlow 0 (r0 - 1) (by omega) (by omega)]
      exact decide_eq_true (by omega)
    have hnoflag : ∀ j, 0 < j → j < d → (X.getD j 0).testBit (r0 - 1) = false := by
      intro j hj0 hj
      rw [hlow j (r0 - 1) hj (by omega)]
      exact decide_eq_false (by omega)
    have hM0 : (X.set 0 (flipLow (r0 - 1) (X.getD 0 0))).getD 0 0
        = flipLow (r0 - 1) (X.getD 0 0) := by
      rw [getD_set, if_pos ⟨rfl, by omega⟩]
    have hMj : ∀ j, j ≠ 0 → (X.set 0 (flipLow (r0 - 1) (X.getD 0 0))).getD j 0 = X.getD j 0 := by
      intro j hj
      rw [getD_set, if_neg (by omega)]
    have hpre : decodePasses d (r0 - 1) 1 X = X.set 0 (flipLow (r0 - 1) (X.getD 0 0)) := by
      by_cases hr1 : r0 = 1
      · subst hr1
        rw [Nat.sub_self, flipLow_zero, set_getD_self]
        rfl
      · have e : r0 - 1 = (r0 - 2) + 1 := by omega
        have e2 : 1 + (r0 - 2) = r0 - 1 := by omega
        have hlast := decodePasses_succ_last d (r0 - 2) 1 X
        rw [← e, e2, decodePasses_noop d (r0 - 2) 1 (r0 - 1) X (by omega) hLZ (by omega)] at hlast
        rw [hlast, passDown_noop_high 1 d (r0 - 1) X (by omega) (by omega), passDown_succ,
          passDown_zero, exchangeStep_eq, if_pos hflag]
        intro j hj1 hj2
        refine ⟨hnoflag j (by omega) hj2, ?_⟩
        intro r hr
        rw [hLZ 0 r hr, hLZ j r hr]
    refine ⟨X.set 0 (flipLow (r0 - 1) (X.getD 0 0)), by rw [List.length_set]; exact hlen,
      ?_, hMj, ?_, ?_, ?_⟩
    · rw [hpre]
      congr 1
      have e : d = i0 + 1 := by omega
      conv_lhs => rw [e]
      rw [passDown_succ]
    · rw [hM0]
      apply mod_two_pow_eq_ones_of_testBit
      intro r hr
      rw [testBit_flipLow]
      by_cases hr1 : r < r0 - 1
      · rw [hLZ 0 r hr1]
        simp [hr1]
      · have : r = r0 - 1 := by omega
        rw [this, hflag]
        simp
    · rw [hM0]
      exact flipLow_div_high _ (by omega)
    · intro j hj0 hj
      rw [hMj j (by omega)]
      apply mod_two_pow_eq_zero_of_testBit
      intro r hr
      by_cases hr1 : r < r0 - 1
      · exact hLZ j r hr1
      · have : r = r0 - 1 := by omega
        rw [this]
        exact hnoflag j hj0 hj

/-! ## Two transposes that differ in one bit decode to neighbours -/

theorem locality_core (d b r0 i0 : Nat) (X X' : List Nat) (hlen : X.length = d)
    (hlen' : X'.length = d) (hi0 : i0 < d) (hr0b : r0 < b) (hsame : AgreeOff i0 X X')
    (hbit : (X.getD i0 0).testBit r0 = false) (htog : X'.getD i0 0 = X.getD i0 0 + 2 ^ r0)
    (hlow : ∀ j r, j < d → r * d + (d - 1 - j) < r0 * d + (d - 1 - i0) →
      (X.getD j 0).testBit r = decide (r * d + (d - 1 - j) + 1 = r0 * d + (d - 1 - i0))) :
    Adj b (decodePasses d (b - 1) 1 X) (decodePasses d (b - 1) 1 X') := by
  have hlow' : ∀ j r, j < d → r * d + (d - 1 - j) < r0 * d + (d - 1 - i0) →
      (X'.getD j 0).testBit r = decide (r * d + (d - 1 - j) + 1 = r0 * d + (d - 1 - i0)) := by
    intro j r hj hpos
    by_cases hji : j = i0
    · subst hji
      have hr : r < r0 := by
        have : r * d < r0 * d := by omega
        exact Nat.lt_of_mul_lt_mul_right this
      rw [htog, Nat.add_comm, Nat.testBit_two_pow_add_gt hr]
      exact hlow j r hj hpos
    · rw [← hsame j hji]
      exact hlow j r hj hpos
  by_cases hr0 : r0 = 0
  · subst hr0
    have hadj : Adj 1 X X' := by
      refine ⟨by rw [hlen, hlen'], i0, by omega, hsame, ?_, Or.inl (by rw [htog]; simp)⟩
      rw [htog]
      have h := add_div_two_pow_succ (c := 2 ^ 0) hbit (by simp [Nat.mod_one])
      simpa using h.symm
    have h := decodePasses_adj d (b - 1) 1 (by omega) hadj
    have e : 1 + (b - 1) = b := by omega
    rwa [e] at h
  · obtain ⟨M, hMlen, hMeq, hMj, hM0, hMdiv, hMz⟩ :=
      reach_mid d b r0 i0 X hlen hi0 (by omega) hr0b hlow
    obtain ⟨M', hMlen', hMeq', hMj', hM0', hMdiv', _⟩ :=
      reach_mid d b r0 i0 X' hlen' hi0 (by omega) hr0b hlow'
    rw [hMeq, hMeq']
    have hdm := Nat.div_add_mod (M.getD 0 0) (2 ^ r0)
    have hdm' := Nat.div_add_mod (M'.getD 0 0) (2 ^ r0)
    rw [hM0, hMdiv] at hdm
    rw [hM0', hMdiv'] at hdm'
    by_cases hi : i0 = 0
    · subst hi
      have hdiv' : X'.getD 0 0 / 2 ^ r0 = X.getD 0 0 / 2 ^ r0 + 1 := by
        rw [htog, Nat.add_div_right _ (Nat.two_pow_pos r0)]
      rw [hdiv', Nat.mul_add, Nat.mul_one] at hdm'
      apply tail_adj d b r0 0 M M' hMlen hMlen' hi0 hr0b
      · intro l hl
        rw [hMj l hl, hMj' l hl, hsame l hl]
      · rw [testBit_eq_of_div_eq hMdiv]
        exact hbit
      · omega
      · exact hM0
      · exact hMz
    · have h00 : X.getD 0 0 = X'.getD 0 0 := hsame 0 (Ne.symm hi)
      rw [← h00] at hdm'
      apply tail_adj d b r0 i0 M M' hMlen hMlen' hi0 hr0b
      · intro l hl
        by_cases hl0 : l = 0
        · subst hl0; omega
        · rw [hMj l hl0, hMj' l hl0, hsame l hl]
      · rw [hMj i0 hi]
        exact hbit
      · rw [hMj i0 hi, hMj' i0 hi]
        exact htog
      · exact hM0
      · exact hMz

/-! ## The bits of the Gray-coded transpose -/

theorem axis_index_eq {d b i r : Nat} (hi : i < d) (hr : r < b) :
    b * d - 1 - (i + (b - 1 - r) * d) = r * d + (d - 1 - i) := by
  have h : ((b - 1 - r) + r + 1) * d = b * d := by
    congr 1
    omega
  rw [Nat.add_mul, Nat.add_mul, Nat.one_mul] at h
  omega

theorem testBit_transpose (d b h : Nat) (hd : 0 < d) (hsz : d * b ≤ 31) (hh : h < 2 ^ (d * b))
    (j r : Nat) (hj : j < d) :
    ((hilbertIntegerToTranspose d b (h : Int) (List.replicate d 0)).getD j 0).testBit r
      = (decide (r < b) && h.testBit (r * d + (d - 1 - j))) := by
  have h31 := two_pow_le_of_le_31 hsz
  rw [getD_hilbertIntegerToTranspose d b _ _ (by simp) (le_of_mul_le_31 hd hsz) j hj,
    toULong_natCast (by omega), testBit_bitsSum]
  by_cases hr : r < b
  · unfold axisBit
    rw [axis_index_eq hj hr]
  · simp [hr]

theorem testBit_grayTranspose (d b h : Nat) (hd : 0 < d) (hsz : d * b ≤ 31)
    (hh : h < 2 ^ (d * b)) (j r : Nat) (hj : j < d) :
    ((grayDecode d (hilbertIntegerToTranspose d b (h : Int) (List.replicate d 0))).getD j
        0).testBit r
      = (decide (r < b) && (h ^^^ h >>> 1).testBit (r * d + (d - 1 - j))) := by
  rw [getD_grayDecode d _ hd (by rw [length_hilbertIntegerToTranspose]; simp)]
  rw [Nat.testBit_xor, Nat.testBit_shiftRight]
  by_cases hj0 : j = 0
  · subst hj0
    rw [if_pos rfl, Nat.testBit_xor, Nat.testBit_shiftRight,
      testBit_transpose d b h hd hsz hh 0 r hd,
      testBit_transpose d b h hd hsz hh (d - 1) (1 + r) (by omega)]
    have e1 : d - 1 - (d - 1) = 0 := by omega
    have e2 : (1 + r) * d + 0 = 1 + (r * d + (d - 1 - 0)) := by
      rw [Nat.add_mul, Nat.one_mul]; omega
    rw [e1, e2]
    by_cases hr : r < b
    · by_cases hr1 : 1 + r < b
      · simp [hr, hr1]
      · have hb : b = r + 1 := by omega
        have hz : h.testBit (1 + (r * d + (d - 1 - 0))) = false := by
          apply Nat.testBit_lt_two_pow
          apply Nat.lt_of_lt_of_le hh
          apply Nat.pow_le_pow_right (by norm_num)
          rw [hb, Nat.mul_add, Nat.mul_one, Nat.mul_comm d r]
          omega
        simp only [Nat.sub_zero] at hz
        simp [hr, hr1, hz]
    · have hr1 : ¬ 1 + r < b := by omega
      simp [hr, hr1]
  · rw [if_neg hj0, if_pos hj, Nat.testBit_xor, testBit_transpose d b h hd hsz hh j r hj,
      testBit_transpose d b h hd hsz hh (j - 1) r (by omega)]
    have e : r * d + (d - 1 - (j - 1)) = 1 + (r * d + (d - 1 - j)) := by omega
    rw [e]
    by_cases hr : r < b
    · simp [hr]
    · simp [hr]

/-! ## Consecutive integers and their Gray codes -/

theorem exists_trailing_ones (h : Nat) : ∃ c m, h = 2 ^ (c + 1) * m + (2 ^ c - 1) := by
  induction h using Nat.strong_induction_on with
  | _ h ih =>
    by_cases hev : h % 2 = 0
    · exact ⟨0, h / 2, by simp; omega⟩
    · obtain ⟨c, m, hcm⟩ := ih (h / 2) (by omega)
      refine ⟨c + 1, m, ?_⟩
      have hp : 0 < 2 ^ c := Nat.two_pow_pos c
      have e1 : 2 ^ (c + 1 + 1) = 2 * 2 ^ (c + 1) := by rw [pow_succ]; omega
      have e2 : 2 ^ (c + 1) = 2 * 2 ^ c := by rw [pow_succ]; omega
      have e3 : 2 * 2 ^ (c + 1) * m = 2 * (2 ^ (c + 1) * m) := by rw [Nat.mul_assoc]
      rw [e1, e3]
      omega

theorem testBit_trailing (c m n : Nat) :
    (2 ^ (c + 1) * m + (2 ^ c - 1)).testBit n
      = if n < c then true else if n = c then false else m.testBit (n - (c + 1)) := by
  have hp : 0 < 2 ^ c := Nat.two_pow_pos c
  have e2 : 2 ^ (c + 1) = 2 * 2 ^ c := by rw [pow_succ]; omega
  rw [testBit_two_pow_mul_add (c + 1) m _ n (by omega), Nat.testBit_two_pow_sub_one]
  by_cases h1 : n < c
  · simp [h1, show n < c + 1 by omega]
  · by_cases h2 : n = c
    · simp [h2]
    · simp [h1, h2, show ¬ n < c + 1 by omega]

theorem testBit_trailing_succ (c m n : Nat) :
    (2 ^ (c + 1) * m + (2 ^ c - 1) + 1).testBit n
      = if n < c then false else if n = c then true else m.testBit (n - (c + 1)) := by
  have hp : 0 < 2 ^ c := Nat.two_pow_pos c
  have e2 : 2 ^ (c + 1) = 2 * 2 ^ c := by rw [pow_succ]; omega
  have e : 2 ^ (c + 1) * m + (2 ^ c - 1) + 1 = 2 ^ (c + 1) * m + 2 ^ c := by omega
  rw [e, testBit_two_pow_mul_add (c + 1) m _ n (by omega), Nat.testBit_two_pow]
  by_cases h1 : n < c
  · simp [h1, show n < c + 1 by omega, show c ≠ n by omega]
  · by_cases h2 : n = c
    · simp [h2]
    · simp [h1, h2, show ¬ n < c + 1 by omega]

theorem gray_testBit_low (c m n : Nat) (hn : n < c) :
    ((2 ^ (c + 1) * m + (2 ^ c - 1)) ^^^ (2 ^ (c + 1) * m + (2 ^ c - 1)) >>> 1).testBit n
      = decide (n + 1 = c) := by
  rw [Nat.testBit_xor, Nat.testBit_shiftRight, testBit_trailing, testBit_trailing, if_pos hn]
  by_cases h1 : 1 + n < c
  · simp [h1, show n + 1 ≠ c by omega]
  · have h2 : 1 + n = c := by omega
    simp [h2, show n + 1 = c by omega]

theorem gray_succ_testBit (c m n : Nat) :
    ((2 ^ (c + 1) * m + (2 ^ c - 1) + 1) ^^^ (2 ^ (c + 1) * m + (2 ^ c - 1) + 1) >>> 1).testBit n
      = (((2 ^ (c + 1) * m + (2 ^ c - 1)) ^^^ (2 ^ (c + 1) * m + (2 ^ c - 1)) >>> 1).testBit n
          != decide (n = c)) := by
  rw [Nat.testBit_xor, Nat.testBit_shiftRight, Nat.testBit_xor, Nat.testBit_shiftRight,
    testBit_trailing, testBit_trailing, testBit_trailing_succ, testBit_trailing_succ]
  by_cases h1 : n < c
  · by_cases h2 : 1 + n < c
    · simp [h1, h2, show n ≠ c by omega]
    · have h3 : 1 + n = c := by omega
      simp [h1, h3, show n ≠ c by omega]
  · by_cases h2 : n = c
    · subst h2
      simp
    · simp [h1, h2, show ¬ 1 + n < c by omega, show 1 + n ≠ c by omega]

theorem add_two_pow_testBit {a k : Nat} (hbit : a.testBit k = false) (r : Nat) :
    (a + 2 ^ k).testBit r = (a.testBit r != decide (r = k)) := by
  have hq : a / 2 ^ k % 2 = 0 := by
    rw [Nat.testBit_to_div_mod] at hbit
    rcases Nat.mod_two_eq_zero_or_one (a / 2 ^ k) with h | h
    · exact h
    · rw [h] at hbit; simp at hbit
  have e : a + 2 ^ k = 2 ^ k * (a / 2 ^ k + 1) + a % 2 ^ k := by
    have := Nat.div_add_mod a (2 ^ k)
    rw [Nat.mul_add, Nat.mul_one]
    omega
  rw [e, testBit_two_pow_mul_add k _ _ r (Nat.mod_lt _ (Nat.two_pow_pos k)),
    Nat.testBit_mod_two_pow]
  by_cases h1 : r < k
  · simp [h1, show r ≠ k by omega]
  · rw [if_neg h1]
    by_cases h2 : r = k
    · subst h2
      rw [Nat.sub_self, hbit]
      simp
      omega
    · obtain ⟨s, hs⟩ : ∃ s, r - k = s + 1 := ⟨r - k - 1, by omega⟩
      rw [hs, Nat.testBit_succ]
      have e2 : (a / 2 ^ k + 1) / 2 = a / 2 ^ k / 2 := by omega
      have hs' : s.succ = r - k := by omega
      rw [e2, ← Nat.testBit_succ, hs', testBit_div_two_pow']
      simp [h2, show k + (r - k) = r by omega]

theorem pos_eq_iff {d r r0 a a0 : Nat} (ha : a < d) (ha0 : a0 < d) :
    r * d + a = r0 * d + a0 ↔ r = r0 ∧ a = a0 := by
  constructor
  · intro h
    rcases Nat.lt_trichotomy r r0 with h1 | h1 | h1
    · have := mul_succ_le d h1
      omega
    · subst h1
      exact ⟨rfl, by omega⟩
    · have := mul_succ_le d h1
      omega
  · rintro ⟨rfl, rfl⟩
    rfl

/-! ## Consecutive indices decode to neighbours -/

theorem decodeTranspose_consecutive (d b h : Nat) (hd : 0 < d) (hsz : d * b ≤ 31)
    (hh : h + 1 < 2 ^ (d * b)) :
    Adj b (decodeTranspose d b (hilbertIntegerToTranspose d b (h : Int) (List.replicate d 0)))
      (decodeTranspose d b
        (hilbertIntegerToTranspose d b ((h + 1 : Nat) : Int) (List.replicate d 0))) := by
  obtain ⟨c, m, hcm⟩ := exists_trailing_ones h
  subst hcm
  have hc : c < d * b := by
    by_contra hcon
    have h1 : 2 ^ (d * b) ≤ 2 ^ c := Nat.pow_le_pow_right (by norm_num) (by omega)
    have h2 : 0 < 2 ^ c := Nat.two_pow_pos c
    omega
  -- the position `c` of the differing Gray bit, as level `r0` and axis `i0`
  obtain ⟨r0, a0, ha0, hca⟩ : ∃ r0 a0, a0 < d ∧ c = r0 * d + a0 :=
    ⟨c / d, c % d, Nat.mod_lt _ hd, by rw [Nat.mul_comm]; exact (Nat.div_add_mod c d).symm⟩
  have hr0b : r0 < b := by
    by_contra hcon
    have : b * d ≤ r0 * d := Nat.mul_le_mul_right d (by omega)
    rw [Nat.mul_comm b d] at this
    omega
  obtain ⟨i0, hi0, hia⟩ : ∃ i0, i0 < d ∧ d - 1 - i0 = a0 := ⟨d - 1 - a0, by omega, by omega⟩
  have hc' : c = r0 * d + (d - 1 - i0) := by rw [hia]; exact hca
  have hposeq : ∀ j r, j < d → (r * d + (d - 1 - j) = c ↔ r = r0 ∧ j = i0) := by
    intro j r hj
    rw [hc', pos_eq_iff (by omega) (by omega)]
    constructor
    · rintro ⟨h1, h2⟩; exact ⟨h1, by omega⟩
    · rintro ⟨h1, h2⟩; exact ⟨h1, by rw [h2]⟩
  have hposlt : ∀ j r, j < d → r * d + (d - 1 - j) < c → r < b := by
    intro j r _ hlt
    by_contra hcon
    have := mul_succ_le d (show r0 < r by omega)
    omega
  generalize hA : grayDecode d (hilbertIntegerToTranspose d b
    ((2 ^ (c + 1) * m + (2 ^ c - 1) : Nat) : Int) (List.replicate d 0)) = A
  generalize hA' : grayDecode d (hilbertIntegerToTranspose d b
    ((2 ^ (c + 1) * m + (2 ^ c - 1) + 1 : Nat) : Int) (List.replicate d 0)) = A'
  have hlen : A.length = d := by
    rw [← hA, length_grayDecode, length_hilbertIntegerToTranspose, List.length_replicate]
  have hlen' : A'.length = d := by
    rw [← hA', length_grayDecode, length_hilbertIntegerToTranspose, List.length_replicate]
  have hbA : ∀ j r, j < d → (A.getD j 0).testBit r
      = (decide (r < b) &&
          ((2 ^ (c + 1) * m + (2 ^ c - 1)) ^^^ (2 ^ (c + 1) * m + (2 ^ c - 1)) >>> 1).testBit
            (r * d + (d - 1 - j))) := by
    intro j r hj
    rw [← hA]
    exact testBit_grayTranspose d b _ hd hsz (by omega) j r hj
  have hbA' : ∀ j r, j < d → (A'.getD j 0).testBit r
      = ((A.getD j 0).testBit r != decide (r = r0 ∧ j = i0)) := by
    intro j r hj
    rw [hbA j r hj, ← hA', testBit_grayTranspose d b _ hd hsz hh j r hj, gray_succ_testBit]
    generalize ((2 ^ (c + 1) * m + (2 ^ c - 1)) ^^^
      (2 ^ (c + 1) * m + (2 ^ c - 1)) >>> 1).testBit (r * d + (d - 1 - j)) = g
    by_cases hp : r * d + (d - 1 - j) = c
    · have hp2 := (hposeq j r hj).mp hp
      have hrb : r < b := by rw [hp2.1]; exact hr0b
      rw [decide_eq_true hp, decide_eq_true hp2, decide_eq_true hrb]
      cases g <;> rfl
    · have hp2 : ¬ (r = r0 ∧ j = i0) := fun h => hp ((hposeq j r hj).mpr h)
      rw [decide_eq_false hp, decide_eq_false hp2]
      cases g <;> cases decide (r < b) <;> rfl
  have hoff : AgreeOff i0 A A' := by
    intro j hj
    by_cases hjd : j < d
    · apply Nat.eq_of_testBit_eq
      intro r
      rw [hbA' j r hjd]
      simp [hj]
    · rw [getD_of_length_le A j (by omega), getD_of_length_le A' j (by omega)]
  have hlowA : ∀ j r, j < d → r * d + (d - 1 - j) < r0 * d + (d - 1 - i0) →
      (A.getD j 0).testBit r = decide (r * d + (d - 1 - j) + 1 = r0 * d + (d - 1 - i0)) := by
    intro j r hj hlt
    rw [← hc'] at hlt ⊢
    rw [hbA j r hj, gray_testBit_low c m _ hlt, decide_eq_true (hposlt j r hj hlt),
      Bool.true_and]
  have hlowA' : ∀ j r, j < d → r * d + (d - 1 - j) < r0 * d + (d - 1 - i0) →
      (A'.getD j 0).testBit r = decide (r * d + (d - 1 - j) + 1 = r0 * d + (d - 1 - i0)) := by
    intro j r hj hlt
    have hne : ¬ (r = r0 ∧ j = i0) := by
      rintro ⟨h1, h2⟩
      subst h1 h2
      omega
    rw [hbA' j r hj, hlowA j r hj hlt]
    simp [hne]
  unfold decodeTranspose
  rw [hA, hA']
  by_cases hbit : (A.getD i0 0).testBit r0 = false
  · apply locality_core d b r0 i0 A A' hlen hlen' hi0 hr0b hoff hbit _ hlowA
    apply Nat.eq_of_testBit_eq
    intro r
    rw [add_two_pow_testBit hbit, hbA' i0 r hi0]
    simp
  · have hbit1 : (A.getD i0 0).testBit r0 = true := by
      cases hh2 : (A.getD i0 0).testBit r0 with
      | false => exact absurd hh2 hbit
      | true => rfl
    have hbit' : (A'.getD i0 0).testBit r0 = false := by
      rw [hbA' i0 r0 hi0, hbit1]
      simp
    apply adj_symm
    apply locality_core d b r0 i0 A' A hlen' hlen hi0 hr0b
      (fun j hj => (hoff j hj).symm) hbit' _ hlowA'
    apply Nat.eq_of_testBit_eq
    intro r
    rw [add_two_pow_testBit hbit', hbA' i0 r hi0]
    by_cases hr : r = r0
    · simp [hr]
    · simp [hr]

theorem consecutive_points_adjacent (d b fuel i : Nat) (hd : 1 ≤ d) (hb1 : 1 ≤ b)
    (hb30 : b ≤ 30) (hsz : d * b ≤ 31) (hi : i + 1 < 2 ^ (d * b)) (hfuel : b - 1 ≤ fuel) :
    ∃ p q : List Nat,
      pointFromHilbertNumber d b fuel (i : Int) = some p ∧
      pointFromHilbertNumber d b fuel ((i + 1 : Nat) : Int) = some q ∧
      p.length = d ∧ q.length = d ∧
      ∃ a, a < d ∧ (∀ j, j ≠ a → p.getD j 0 = q.getD j 0) ∧
        (p.getD a 0 + 1 = q.getD a 0 ∨ q.getD a 0 + 1 = p.getD a 0) := by
  obtain ⟨hlen, a, ha, hoff, _, hone⟩ := decodeTranspose_consecutive d b i hd hsz hi
  have hl1 : (decodeTranspose d b
      (hilbertIntegerToTranspose d b (i : Int) (List.replicate d 0))).length = d := by
    rw [length_decodeTranspose, length_hilbertIntegerToTranspose, List.length_replicate]
  refine ⟨_, _, pointFromHilbertNumber_eq d b fuel _ hb1 hb30 hfuel,
    pointFromHilbertNumber_eq d b fuel _ hb1 hb30 hfuel, hl1, by rw [← hlen]; exact hl1,
    a, by rw [← hl1]; exact ha, hoff, hone⟩

/-! ## Only the `b` low bits of the first `d` axes matter to the encoder -/

theorem transposeToHilbertInteger_congr (d b : Nat) (x y : List Nat) (hsz : d * b ≤ 31)
    (h : LowEq d b x y) : transposeToHilbertInteger d b x = transposeToHilbertInteger d b y := by
  rw [transposeToHilbertInteger_eq d b x hsz, transposeToHilbertInteger_eq d b y hsz]
  apply bitsSum_congr
  intro n hn
  unfold indexBit
  have hd : 0 < d := by
    rcases Nat.eq_zero_or_pos d with h0 | h0
    · subst h0; simp at hn
    · exact h0
  have hb : 0 < b := by
    rcases Nat.eq_zero_or_pos b with h0 | h0
    · subst h0; simp at hn
    · exact h0
  generalize (d * b - 1 - n) / d = q
  exact h _ _ (Nat.mod_lt _ hd) (by omega)

theorem exchangeStep_lowEq (d b k i : Nat) (x y : List Nat) (hk : k < b) (hi : i < d)
    (hx : d ≤ x.length) (hy : d ≤ y.length) (h : LowEq d b x y) :
    LowEq d b (exchangeStep (2 ^ k) x i) (exchangeStep (2 ^ k) y i) := by
  intro j r hj hr
  have hflag : (x.getD i 0).testBit k = (y.getD i 0).testBit k := h i k hi hk
  have h0 : ∀ r, r < b → (x.getD 0 0).testBit r = (y.getD 0 0).testBit r :=
    fun r hr => h 0 r (by omega) hr
  rw [getD_exchangeStep k x i j (by omega), getD_exchangeStep k y i j (by omega), hflag]
  by_cases hb : (y.getD i 0).testBit k = true
  · rw [if_pos hb, if_pos hb]
    by_cases hj0 : j = 0
    · rw [if_pos hj0, if_pos hj0, testBit_flipLow, testBit_flipLow, h0 r hr]
    · rw [if_neg hj0, if_neg hj0, h j r hj hr]
  · rw [if_neg hb, if_neg hb]
    by_cases hji : j = i
    · rw [if_pos hji, if_pos hji, testBit_mixLow, testBit_mixLow, h0 r hr, h i r hi hr]
    · rw [if_neg hji, if_neg hji]
      by_cases hj0 : j = 0
      · rw [if_pos hj0, if_pos hj0, testBit_mixLow, testBit_mixLow, h0 r hr, h i r hi hr]
      · rw [if_neg hj0, if_neg hj0, h j r hj hr]

theorem foldl_exchangeStep_lowEq (d b k : Nat) (l : List Nat) (x y : List Nat) (hk : k < b)
    (hl : ∀ i ∈ l, i < d) (hx : d ≤ x.length) (hy : d ≤ y.length) (h : LowEq d b x y) :
    LowEq d b (l.foldl (exchangeStep (2 ^ k)) x) (l.foldl (exchangeStep (2 ^ k)) y) := by
  induction l generalizing x y with
  | nil => exact h
  | cons i rest ih =>
    rw [List.foldl_cons, List.foldl_cons]
    exact ih _ _ (fun i' hi' => hl i' (List.mem_cons_of_mem _ hi'))
      (by rw [length_exchangeStep]; exact hx) (by rw [length_exchangeStep]; exact hy)
      (exchangeStep_lowEq d b k i x y hk (hl i (List.mem_cons_self _ _)) hx hy h)

theorem encodePasses_lowEq (d b n : Nat) (x y : List Nat) (hn : n < b)
    (hx : d ≤ x.length) (hy : d ≤ y.length) (h : LowEq d b x y) :
    LowEq d b (encodePasses d n x) (encodePasses d n y) := by
  induction n generalizing x y with
  | zero => exact h
  | succ n ih =>
    rw [encodePasses, encodePasses]
    apply ih _ _ (by omega) (by rw [length_passUp]; exact hx) (by rw [length_passUp]; exact hy)
    unfold passUp
    exact foldl_exchangeStep_lowEq d b (n + 1) _ x y hn
      (fun i hi => List.mem_range.mp hi) hx hy h

theorem testBit_prefixXor_congr (d b : Nat) (x y : List Nat) (h : LowEq d b x y) (j r : Nat)
    (hj : j < d) (hr : r < b) : (prefixXor x j).testBit r = (prefixXor y j).testBit r := by
  induction j with
  | zero => exact h 0 r hj hr
  | succ j ih =>
    rw [prefixXor, prefixXor, Nat.testBit_xor, Nat.testBit_xor, ih (by omega),
      h (j + 1) r hj hr]

theorem grayEncode_lowEq (d b : Nat) (x y : List Nat) (hx : d ≤ x.length) (hy : d ≤ y.length)
    (h : LowEq d b x y) : LowEq d b (grayEncode d x) (grayEncode d y) := by
  intro j r hj hr
  rw [getD_grayEncode d x hx, getD_grayEncode d y hy, if_pos hj, if_pos hj]
  exact testBit_prefixXor_congr d b x y h j r hj hr

theorem corr_congr (y y' k : Nat) (h : ∀ r, r ≤ k → y.testBit r = y'.testBit r) :
    corr y k = corr y' k := by
  induction k with
  | zero => rfl
  | succ k ih =>
    rw [corr, corr, ih (fun r hr => h r (by omega)), h (k + 1) (le_refl _)]

theorem xorAll_lowEq (d b t : Nat) (x y : List Nat) (hx : d ≤ x.length) (hy : d ≤ y.length)
    (h : LowEq d b x y) : LowEq d b (xorAll d t x) (xorAll d t y) := by
  intro j r hj hr
  rw [getD_xorAll d t x hx, getD_xorAll d t y hy, if_pos hj, if_pos hj, Nat.testBit_xor,
    Nat.testBit_xor, h j r hj hr]

theorem encodeTranspose_lowEq (d b : Nat) (x y : List Nat) (hd : 0 < d) (hb : 0 < b)
    (hx : d ≤ x.length) (hy : d ≤ y.length) (h : LowEq d b x y) :
    LowEq d b (encodeTranspose d b x) (encodeTranspose d b y) := by
  unfold encodeTranspose
  have h1 := encodePasses_lowEq d b (b - 1) x y (by omega) hx hy h
  have hx1 : d ≤ (encodePasses d (b - 1) x).length := by rw [length_encodePasses]; exact hx
  have hy1 : d ≤ (encodePasses d (b - 1) y).length := by rw [length_encodePasses]; exact hy
  have h2 := grayEncode_lowEq d b _ _ hx1 hy1 h1
  have hc : corr ((grayEncode d (encodePasses d (b - 1) x)).getD (d - 1) 0) (b - 1)
      = corr ((grayEncode d (encodePasses d (b - 1) y)).getD (d - 1) 0) (b - 1) :=
    corr_congr _ _ _ (fun r hr => h2 (d - 1) r (by omega) (by omega))
  simp only
  rw [hc]
  exact xorAll_lowEq d b _ _ _ (by rw [length_grayEncode]; exact hx1)
    (by rw [length_grayEncode]; exact hy1) h2

theorem getD_take_map_mod (d b : Nat) (p : List Nat) (j : Nat) (hj : j < d) :
    ((p.take d).map (fun c => c % 2 ^ b)).getD j 0 = p.getD j 0 % 2 ^ b := by
  simp only [List.getD_eq_getElem?_getD, List.getElem?_map, List.getElem?_take, if_pos hj]
  cases p[j]? with
  | none => simp
  | some v => simp

theorem lowEq_take_map_mod (d b : Nat) (p : List Nat) :
    LowEq d b p ((p.take d).map (fun c => c % 2 ^ b)) := by
  intro j r hj hr
  rw [getD_take_map_mod d b p j hj, Nat.testBit_mod_two_pow]
  simp [hr]

theorem hilbertNumberFromPoint_alias (d b : Nat) (p : List Nat) (hd : 1 ≤ d) (hb : 1 ≤ b)
    (hsz : d * b ≤ 31) (hlen : d ≤ p.length) :
    hilbertNumberFromPoint d b p
      = hilbertNumberFromPoint d b ((p.take d).map (fun c => c % 2 ^ b)) := by
  have hb31 := le_of_mul_le_31 hd hsz
  rw [hilbertNumberFromPoint_eq d b p hb31, hilbertNumberFromPoint_eq d b _ hb31]
  apply transposeToHilbertInteger_congr d b _ _ hsz
  apply encodeTranspose_lowEq d b _ _ hd hb hlen
  · rw [List.length_map, List.length_take]
    omega
  · exact lowEq_take_map_mod d b p

/-! ## The index as a double sum over levels and axes -/

theorem interleave_inner_sum (d b : Nat) (x : List Nat) (hsz : d * b ≤ 31) (i : Nat)
    (hi : i < b) (j0 : Nat) (hj0 : j0 ≤ d) (s : Nat × Nat) (hs1 : s.1 = i * d)
    (hs2 : s.2 + bitsSum (indexBit d b x) (d * b - i * d) = bitsSum (indexBit d b x) (d * b)) :
    ((List.range j0).foldl (interleaveStep b (d * b) x i) s).2
      = s.2 + Finset.sum (Finset.range j0)
          (fun j => if (x.getD j 0).testBit (b - 1 - i) then 2 ^ (d * b - 1 - (i * d + j))
            else 0) := by
  induction j0 with
  | zero => simp
  | succ j ih =>
    have ihj := ih (by omega)
    obtain ⟨h1, h2⟩ := interleave_inner d b x hsz i hi j (by omega) s hs1 hs2
    rw [List.range_succ, List.foldl_append, Finset.sum_range_succ]
    simp only [List.foldl_cons, List.foldl_nil]
    generalize (List.range j).foldl (interleaveStep b (d * b) x i) s = s' at ihj h1 h2
    unfold interleaveStep
    simp only
    rw [h1]
    have hlt : i * d + j < d * b := by
      have : (i + 1) * d ≤ b * d := Nat.mul_le_mul_right d (by omega)
      rw [Nat.mul_comm d b]
      rw [Nat.add_mul] at this
      omega
    have htot := bitsSum_lt (indexBit d b x) (d * b)
    have h31 := two_pow_le_of_le_31 hsz
    by_cases hb : (x.getD j 0).testBit (b - 1 - i) = true
    · rw [if_pos hb, if_pos hb, shlInt_one (by omega)]
      have h30 := two_pow_le_of_le_30 (show d * b - 1 - (i * d + j) ≤ 30 by omega)
      rw [toULong_natCast (by omega), Nat.mod_eq_of_lt (by omega), ihj]
      omega
    · rw [if_neg hb, if_neg hb, ihj]
      omega

theorem transposeToHilbertInteger_sum (d b : Nat) (x : List Nat) (hsz : d * b ≤ 31) :
    transposeToHilbertInteger d b x
      = Finset.sum (Finset.range b) (fun k => Finset.sum (Finset.range d)
          (fun j => if (x.getD j 0).testBit (b - 1 - k) then 2 ^ (d * b - 1 - (k * d + j))
            else 0)) := by
  unfold transposeToHilbertInteger
  simp only
  have key : ∀ i0, i0 ≤ b →
      ((List.range i0).foldl
          (fun s i => (List.range d).foldl (interleaveStep b (d * b) x i) s) (0, 0)).2
        = Finset.sum (Finset.range i0) (fun k => Finset.sum (Finset.range d)
            (fun j => if (x.getD j 0).testBit (b - 1 - k) then 2 ^ (d * b - 1 - (k * d + j))
              else 0)) := by
    intro i0
    induction i0 with
    | zero => intro _; simp
    | succ i ih =>
      intro hi
      obtain ⟨h1, h2⟩ := interleave_outer d b x hsz i (by omega)
      rw [List.range_succ, List.foldl_append, Finset.sum_range_succ]
      simp only [List.foldl_cons, List.foldl_nil]
      rw [interleave_inner_sum d b x hsz i (by omega) d (le_refl d) _ h1 h2, ih (by omega)]
  exact key b (le_refl b)

/-! ## The two ends of the curve -/

theorem getD_replicate_zero (d j : Nat) : (List.replicate d 0).getD j 0 = 0 := by
  by_cases hj : j < d
  · rw [List.getD_eq_getElem _ _ (by simpa using hj)]
    simp
  · exact getD_of_length_le _ _ (by simp; omega)

theorem lowZero_replicate (m d : Nat) : LowZero m (List.replicate d 0) := by
  intro j r _
  rw [getD_replicate_zero]
  exact Nat.zero_testBit r

theorem bitsSum_false (n : Nat) : bitsSum (fun _ => false) n = 0 := by
  induction n with
  | zero => rfl
  | succ n ih => simp [bitsSum, ih]

theorem toULong_zero : toULong 0 = 0 := by
  unfold toULong
  simp

theorem hilbertIntegerToTranspose_zero (d b : Nat) (hb : b ≤ 31) :
    hilbertIntegerToTranspose d b 0 (List.replicate d 0) = List.replicate d 0 := by
  apply ext_getD
  · rw [length_hilbertIntegerToTranspose]
  · intro i hi
    rw [length_hilbertIntegerToTranspose, List.length_replicate] at hi
    rw [getD_hilbertIntegerToTranspose d b 0 _ (by simp) hb i hi, getD_replicate_zero,
      toULong_zero]
    refine Eq.trans (bitsSum_congr ?_) (bitsSum_false b)
    intro r _
    unfold axisBit
    exact Nat.zero_testBit _

theorem grayDecode_zero (d : Nat) (hd : 0 < d) :
    grayDecode d (List.replicate d 0) = List.replicate d 0 := by
  apply ext_getD
  · rw [length_grayDecode]
  · intro j _
    rw [getD_grayDecode d _ hd (by simp)]
    simp only [getD_replicate_zero]
    split
    · simp
    · split <;> simp

theorem decodeTranspose_zero (d b : Nat) (hd : 0 < d) (hb : b ≤ 31) :
    decodeTranspose d b (hilbertIntegerToTranspose d b 0 (List.replicate d 0))
      = List.replicate d 0 := by
  unfold decodeTranspose
  rw [hilbertIntegerToTranspose_zero d b hb, grayDecode_zero d hd]
  exact decodePasses_noop d (b - 1) 1 (1 + (b - 1)) _ (by simp)
    (lowZero_replicate _ d) (le_refl _)

theorem decodePasses_top_bit (d b : Nat) (X : List Nat) (hlen : X.length = d) (hd : 0 < d)
    (hb : 1 ≤ b) (hLZ : LowZero (b - 1) X) (hflag : (X.getD 0 0).testBit (b - 1) = true)
    (hno : ∀ j, 0 < j → j < d → (X.getD j 0).testBit (b - 1) = false) :
    decodePasses d (b - 1) 1 X = X.set 0 (flipLow (b - 1) (X.getD 0 0)) := by
  by_cases hb1 : b = 1
  · subst hb1
    rw [Nat.sub_self, flipLow_zero, set_getD_self]
    rfl
  · have e : b - 1 = (b - 2) + 1 := by omega
    have e2 : 1 + (b - 2) = b - 1 := by omega
    have hlast := decodePasses_succ_last d (b - 2) 1 X
    rw [← e, e2, decodePasses_noop d (b - 2) 1 (b - 1) X (by omega) hLZ (by omega)] at hlast
    rw [hlast, passDown_noop_high 1 d (b - 1) X (by omega) (by omega), passDown_succ,
      passDown_zero, exchangeStep_eq, if_pos hflag]
    intro j hj1 hj2
    refine ⟨hno j (by omega) hj2, ?_⟩
    intro r hr
    rw [hLZ 0 r hr, hLZ j r hr]

theorem testBit_gray_ones (s n : Nat) :
    ((2 ^ s - 1) ^^^ (2 ^ s - 1) >>> 1).testBit n = decide (n + 1 = s) := by
  rw [Nat.testBit_xor, Nat.testBit_shiftRight, Nat.testBit_two_pow_sub_one,
    Nat.testBit_two_pow_sub_one]
  by_cases h1 : n + 1 < s
  · simp [show n < s by omega, show 1 + n < s by omega, show n + 1 ≠ s by omega]
  · by_cases h2 : n + 1 = s
    · simp [show n < s by omega, show ¬ 1 + n < s by omega, h2]
    · simp [show ¬ n < s by omega, show ¬ 1 + n < s by omega, h2]

theorem flipLow_two_pow (k : Nat) : flipLow k (2 ^ k) = 2 ^ (k + 1) - 1 := by
  apply Nat.eq_of_testBit_eq
  intro r
  rw [testBit_flipLow, Nat.testBit_two_pow, Nat.testBit_two_pow_sub_one]
  by_cases h1 : r < k
  · simp [h1, show k ≠ r by omega, show r < k + 1 by omega]
  · by_cases h2 : r = k
    · simp [h2]
    · simp [h1, show k ≠ r by omega, show ¬ r < k + 1 by omega]

theorem decodeTranspose_last (d b : Nat) (hd : 0 < d) (hb : 1 ≤ b) (hsz : d * b ≤ 31) :
    decodeTranspose d b
        (hilbertIntegerToTranspose d b ((2 ^ (d * b) - 1 : Nat) : Int) (List.replicate d 0))
      = (2 ^ b - 1) :: List.replicate (d - 1) 0 := by
  have hpos : 0 < 2 ^ (d * b) := Nat.two_pow_pos _
  have hbits : ∀ j r, j < d →
      ((grayDecode d (hilbertIntegerToTranspose d b ((2 ^ (d * b) - 1 : Nat) : Int)
        (List.replicate d 0))).getD j 0).testBit r = decide (r + 1 = b ∧ j = 0) := by
    intro j r hj
    rw [testBit_grayTranspose d b _ hd hsz (by omega) j r hj, testBit_gray_ones]
    by_cases hr : r < b
    · have h1 := mul_succ_le d hr
      by_cases hrb : r + 1 = b
      · subst hrb
        rw [Nat.mul_comm d (r + 1), Nat.add_mul, Nat.one_mul]
        by_cases hj0 : j = 0
        · simp [hj0, show r * d + (d - 1) + 1 = r * d + d by omega]
        · simp [hj0, show ¬ (r * d + (d - 1 - j) + 1 = r * d + d) by omega]
      · have h2 := mul_succ_le d (show r + 1 < b by omega)
        rw [Nat.mul_comm d b]
        rw [Nat.add_mul, Nat.one_mul] at h2
        simp [hr, hrb, show ¬ (r * d + (d - 1 - j) + 1 = b * d) by omega]
    · simp [hr, show ¬ (r + 1 = b) by omega]
  generalize hG : grayDecode d (hilbertIntegerToTranspose d b ((2 ^ (d * b) - 1 : Nat) : Int)
    (List.replicate d 0)) = G at hbits
  have hlen : G.length = d := by
    rw [← hG, length_grayDecode, length_hilbertIntegerToTranspose, List.length_replicate]
  have hG0 : G.getD 0 0 = 2 ^ (b - 1) := by
    apply Nat.eq_of_testBit_eq
    intro r
    rw [hbits 0 r hd, Nat.testBit_two_pow]
    by_cases h : r + 1 = b
    · simp [h, show b - 1 = r by omega]
    · simp [h, show ¬ (b - 1 = r) by omega]
  have hGj : ∀ j, 0 < j → G.getD j 0 = 0 := by
    intro j hj
    by_cases hjd : j < d
    · apply Nat.eq_of_testBit_eq
      intro r
      rw [hbits j r hjd, Nat.zero_testBit]
      simp [show j ≠ 0 by omega]
    · exact getD_of_length_le G j (by omega)
  unfold decodeTranspose
  rw [hG, decodePasses_top_bit d b G hlen hd hb]
  · apply ext_getD
    · rw [List.length_set, hlen]
      simp
      omega
    · intro j hj
      rw [List.length_set, hlen] at hj
      rw [getD_set]
      cases j with
      | zero =>
        rw [if_pos ⟨rfl, by omega⟩, hG0, flipLow_two_pow, Nat.sub_add_cancel hb]
        rfl
      | succ j =>
        rw [if_neg (by omega), hGj (j + 1) (by omega)]
        simp only [List.getD_cons_succ]
        exact (getD_replicate_zero _ _).symm
  · intro j r hr
    by_cases hjd : j < d
    · rw [hbits j r hjd]
      simp [show ¬ (r + 1 = b) by omega]
    · rw [getD_of_length_le G j (by omega)]
      exact Nat.zero_testBit r
  · rw [hG0]
    exact Nat.testBit_two_pow_self
  · intro j hj0 hjd
    rw [hGj j hj0]
    exact Nat.zero_testBit _

/-! ## Only the low `dimension * iterations` bits of the index matter to the decoder -/

theorem coordLoop_congr (bits bits' size d : Nat)
    (h : ∀ n, n < size → bits.testBit n = bits'.testBit n) (fuel j : Nat) (rep coord : Int) :
    coordLoop bits size d fuel j rep coord = coordLoop bits' size d fuel j rep coord := by
  induction fuel generalizing j rep coord with
  | zero => rfl
  | succ f ih =>
    rw [coordLoop, coordLoop]
    by_cases hj : j < size
    · rw [if_pos hj, if_pos hj, h (size - 1 - j) (by omega)]
      exact ih _ _ _
    · rw [if_neg hj, if_neg hj]

theorem hilbertIntegerToTranspose_congr (d b : Nat) (h h' : Int) (x : List Nat)
    (hbits : ∀ n, n < b * d → (toULong h).testBit n = (toULong h').testBit n) :
    hilbertIntegerToTranspose d b h x = hilbertIntegerToTranspose d b h' x := by
  unfold hilbertIntegerToTranspose
  simp only
  congr 1
  funext tr i
  rw [coordLoop_congr (toULong h) (toULong h') (b * d) d hbits]

theorem toULong_emod_two_pow (h : Int) (s : Nat) (hs : s ≤ 64) :
    toULong (h % (2 : Int) ^ s) = toULong h % 2 ^ s := by
  unfold toULong
  have hdvd : ((2 : Int) ^ s) ∣ 18446744073709551616 := by
    have h64 : (18446744073709551616 : Int) = 2 ^ 64 := by norm_num
    rw [h64]
    exact pow_dvd_pow 2 hs
  have hpos : (0 : Int) < 2 ^ s := by positivity
  have h1 : (0 : Int) ≤ h % 2 ^ s := Int.emod_nonneg _ (ne_of_gt hpos)
  have h2 : h % 2 ^ s < 2 ^ s := Int.emod_lt_of_pos _ hpos
  have h3 : (2 : Int) ^ s ≤ 18446744073709551616 := Int.le_of_dvd (by norm_num) hdvd
  have e1 : h % 2 ^ s % 18446744073709551616 = h % 2 ^ s := Int.emod_eq_of_lt h1 (by omega)
  rw [e1]
  have h4 : (0 : Int) ≤ h % 18446744073709551616 := Int.emod_nonneg _ (by norm_num)
  have e2 : h % 2 ^ s = (h % 18446744073709551616) % 2 ^ s :=
    (Int.emod_emod_of_dvd h hdvd).symm
  rw [e2]
  obtain ⟨u, hu⟩ := Int.eq_ofNat_of_zero_le h4
  rw [hu]
  have e3 : ((u : Int) % 2 ^ s) = ((u % 2 ^ s : Nat) : Int) := by push_cast; rfl
  rw [e3, Int.toNat_ofNat, Int.toNat_ofNat]

theorem hilbertIntegerToTranspose_alias (d b : Nat) (h : Int) (x : List Nat)
    (hsz : d * b ≤ 31) :
    hilbertIntegerToTranspose d b h x
      = hilbertIntegerToTranspose d b (h % (2 : Int) ^ (d * b)) x := by
  apply hilbertIntegerToTranspose_congr
  intro n hn
  rw [toULong_emod_two_pow h (d * b) (by omega), Nat.testBit_mod_two_pow]
  have : n < d * b := by rw [Nat.mul_comm]; exact hn
  simp [this]

theorem pointFromHilbertNumber_alias (d b fuel : Nat) (h : Int) (hsz : d * b ≤ 31) :
    pointFromHilbertNumber d b fuel h
      = pointFromHilbertNumber d b fuel (h % (2 : Int) ^ (d * b)) := by
  unfold pointFromHilbertNumber
  rw [← hilbertIntegerToTranspose_alias d b h _ hsz]

/-! ## One iteration, and the origin -/

theorem encodeTranspose_iterations_one (d : Nat) (p : List Nat) (hlen : d ≤ p.length)
    (i : Nat) : (encodeTranspose d 1 p).getD i 0 = (grayEncode d p).getD i 0 := by
  unfold encodeTranspose
  simp only [Nat.sub_self, corr, encodePasses]
  rw [getD_xorAll d 0 _ (by rw [length_grayEncode]; exact hlen)]
  simp

theorem index_bit_iterations_one (d : Nat) (p : List Nat) (hd : d ≤ 31) (hlen : d ≤ p.length)
    (i : Nat) (hi : i < d) :
    (hilbertNumberFromPoint d 1 p).testBit (d - 1 - i)
      = ((grayEncode d p).getD i 0).testBit 0 := by
  rw [hilbertNumberFromPoint_eq d 1 p (by omega),
    transposeToHilbertInteger_eq d 1 _ (by omega), testBit_bitsSum]
  have h1 : d - 1 - i < d * 1 := by omega
  rw [decide_eq_true h1, Bool.true_and]
  unfold indexBit
  have e : d * 1 - 1 - (d - 1 - i) = i := by omega
  rw [e, Nat.mod_eq_of_lt hi, Nat.div_eq_of_lt hi, encodeTranspose_iterations_one d p hlen]

theorem grayEncode_step (d : Nat) (x : List Nat) (hlen : d ≤ x.length) (i : Nat) (hi1 : 1 ≤ i)
    (hi : i < d) :
    (grayEncode d x).getD i 0 = x.getD i 0 ^^^ (grayEncode d x).getD (i - 1) 0 := by
  rw [getD_grayEncode d x hlen, getD_grayEncode d x hlen, if_pos hi, if_pos (by omega)]
  obtain ⟨j, rfl⟩ : ∃ j, i = j + 1 := ⟨i - 1, by omega⟩
  rw [Nat.add_sub_cancel, prefixXor, Nat.xor_comm]

theorem grayEncode_first (d : Nat) (x : List Nat) (hlen : d ≤ x.length) :
    (grayEncode d x).getD 0 0 = x.getD 0 0 := by
  rw [getD_grayEncode d x hlen]
  split
  · rfl
  · rfl

theorem hilbertNumberFromPoint_zero (d b : Nat) (hd : 1 ≤ d) (hb1 : 1 ≤ b) (hsz : d * b ≤ 31) :
    hilbertNumberFromPoint d b (List.replicate d 0) = 0 := by
  have hb31 := le_of_mul_le_31 hd hsz
  have h1 := encodeTranspose_decodeTranspose d b
    (hilbertIntegerToTranspose d b 0 (List.replicate d 0)) hd hb1
    (by rw [length_hilbertIntegerToTranspose, List.length_replicate])
    (bounded_hilbertIntegerToTranspose d b 0 hb31)
  rw [decodeTranspose_zero d b hd hb31] at h1
  rw [hilbertNumberFromPoint_eq d b _ hb31, h1]
  exact transposeToHilbertInteger_hilbertIntegerToTranspose d b 0 hd hsz (Nat.two_pow_pos _)

theorem testBit_transpose_level (d b h : Nat) (hd : 0 < d) (hsz : d * b ≤ 31)
    (hh : h < 2 ^ (d * b)) (i k : Nat) (hi : i < d) (hk : k < b) :
    ((hilbertIntegerToTranspose d b (h : Int) (List.replicate d 0)).getD i 0).testBit
        (b - 1 - k)
      = h.testBit (d * b - 1 - i - k * d) := by
  rw [testBit_transpose d b h hd hsz hh i (b - 1 - k) hi, decide_eq_true (by omega),
    Bool.true_and]
  have e := axis_index_eq (d := d) (b := b) (i := i) (r := b - 1 - k) hi (by omega)
  have e2 : b - 1 - (b - 1 - k) = k := by omega
  rw [e2] at e
  rw [← e, Nat.mul_comm d b]
  congr 1
  omega

/-! ## The claims -/

/-- C1. Encode then decode is the identity: for a dimension `d ≥ 1`, iterations
`1 ≤ b ≤ 30` with `d * b ≤ 31` and a point `p` of length `d` with coordinates
below `2^b`, `pointFromHilbertNumber` applied to `hilbertNumberFromPoint p`
(converted to the `int` parameter) returns `p`, as soon as the loop is given
`b - 1` rounds of fuel. -/
theorem decode_encode_identity (d b fuel : Nat) (p : List Nat) (hd : 1 ≤ d) (hb1 : 1 ≤ b)
    (hb30 : b ≤ 30) (hsz : d * b ≤ 31) (hlen : p.length = d) (hp : ∀ c ∈ p, c < 2 ^ b)
    (hfuel : b - 1 ≤ fuel) :
    pointFromHilbertNumber d b fuel (ulongToInt (hilbertNumberFromPoint d b p)) = some p :=
  roundtrip_point d b fuel p hd hb1 hb30 hsz hlen (bounded_of_forall_mem hp) hfuel

/-- Witness of C1: `d = 3`, `b = 10`, the point `(30, 2, 1000)` decodes back to itself. -/
theorem decode_encode_identity_witness :
    pointFromHilbertNumber 3 10 9 (ulongToInt (hilbertNumberFromPoint 3 10 [30, 2, 1000]))
      = some [30, 2, 1000] :=
  decode_encode_identity 3 10 9 [30, 2, 1000] (by decide) (by decide) (by decide) (by decide)
    (by decide) (by decide) (by decide)

/-- C2. Decode then encode is the identity: for `d ≥ 1`, `1 ≤ b ≤ 30`, `d * b ≤ 31`
and an index `i < 2^(d*b)`, `pointFromHilbertNumber i` returns a point whose
`hilbertNumberFromPoint` is `i`. -/
theorem encode_decode_identity (d b fuel i : Nat) (hd : 1 ≤ d) (hb1 : 1 ≤ b) (hb30 : b ≤ 30)
    (hsz : d * b ≤ 31) (hi : i < 2 ^ (d * b)) (hfuel : b - 1 ≤ fuel) :
    ∃ p, pointFromHilbertNumber d b fuel (i : Int) = some p ∧
      hilbertNumberFromPoint d b p = i := by
  obtain ⟨p, h1, _, _, h2⟩ := roundtrip_index d b fuel i hd hb1 hb30 hsz hi hfuel
  exact ⟨p, h1, h2⟩

/-- Witness of C2: `d = 2`, `b = 3`, index `45`. -/
theorem encode_decode_identity_witness :
    ∃ p, pointFromHilbertNumber 2 3 2 ((45 : Nat) : Int) = some p ∧
      hilbertNumberFromPoint 2 3 p = 45 :=
  encode_decode_identity 2 3 2 45 (by decide) (by decide) (by decide) (by decide) (by decide)
    (by decide)

/-- C4. `hilbertNumberFromPoint` is a bijection from the lattice `[0, 2^b)^d` onto
`{0, ..., 2^(d*b) - 1}` for `d ≥ 1`, `1 ≤ b ≤ 30`, `d * b ≤ 31`: every index is in
range, distinct lattice points get distinct indices, and every index of the
range is the index of a lattice point. -/
theorem hilbertNumberFromPoint_bijection (d b : Nat) (hd : 1 ≤ d) (hb1 : 1 ≤ b) (hb30 : b ≤ 30)
    (hsz : d * b ≤ 31) :
    (∀ p : List Nat, p.length = d → (∀ c ∈ p, c < 2 ^ b) →
      hilbertNumberFromPoint d b p < 2 ^ (d * b)) ∧
    (∀ p q : List Nat, p.length = d → (∀ c ∈ p, c < 2 ^ b) → q.length = d →
      (∀ c ∈ q, c < 2 ^ b) → hilbertNumberFromPoint d b p = hilbertNumberFromPoint d b q →
      p = q) ∧
    (∀ i, i < 2 ^ (d * b) → ∃ p : List Nat, p.length = d ∧ (∀ c ∈ p, c < 2 ^ b) ∧
      hilbertNumberFromPoint d b p = i) := by
  refine ⟨?_, ?_, ?_⟩
  · intro p _ _
    exact hilbertNumberFromPoint_lt d b p hd hsz
  · intro p q hpl hp hql hq heq
    have h1 := roundtrip_point d b (b - 1) p hd hb1 hb30 hsz hpl (bounded_of_forall_mem hp)
      (le_refl _)
    have h2 := roundtrip_point d b (b - 1) q hd hb1 hb30 hsz hql (bounded_of_forall_mem hq)
      (le_refl _)
    rw [heq, h2] at h1
    exact (Option.some.inj h1).symm
  · intro i hi
    obtain ⟨p, _, h2, h3, h4⟩ := roundtrip_index d b (b - 1) i hd hb1 hb30 hsz hi (le_refl _)
    exact ⟨p, h2, forall_mem_of_bounded h3, h4⟩

/-- Witness of C4: the configuration `d = 3`, `b = 10`. -/
theorem hilbertNumberFromPoint_bijection_witness :
    (∀ p : List Nat, p.length = 3 → (∀ c ∈ p, c < 2 ^ 10) →
      hilbertNumberFromPoint 3 10 p < 2 ^ (3 * 10)) ∧
    (∀ p q : List Nat, p.length = 3 → (∀ c ∈ p, c < 2 ^ 10) → q.length = 3 →
      (∀ c ∈ q, c < 2 ^ 10) → hilbertNumberFromPoint 3 10 p = hilbertNumberFromPoint 3 10 q →
      p = q) ∧
    (∀ i, i < 2 ^ (3 * 10) → ∃ p : List Nat, p.length = 3 ∧ (∀ c ∈ p, c < 2 ^ 10) ∧
      hilbertNumberFromPoint 3 10 p = i) :=
  hilbertNumberFromPoint_bijection 3 10 (by decide) (by decide) (by decide) (by decide)

/-- C5. Locality: for `d ≥ 1`, `1 ≤ b ≤ 30`, `d * b ≤ 31` and an index `i` with
`i + 1 < 2^(d*b)`, the points returned by `pointFromHilbertNumber` for `i` and
`i + 1` are lattice-adjacent: they agree on every coordinate but one, and
there they differ by exactly 1. -/
theorem consecutive_indices_lattice_adjacent (d b fuel i : Nat) (hd : 1 ≤ d) (hb1 : 1 ≤ b)
    (hb30 : b ≤ 30) (hsz : d * b ≤ 31) (hi : i + 1 < 2 ^ (d * b)) (hfuel : b - 1 ≤ fuel) :
    ∃ p q : List Nat,
      pointFromHilbertNumber d b fuel (i : Int) = some p ∧
      pointFromHilbertNumber d b fuel ((i + 1 : Nat) : Int) = some q ∧
      p.length = d ∧ q.length = d ∧
      ∃ a, a < d ∧ (∀ j, j ≠ a → p.getD j 0 = q.getD j 0) ∧
        (p.getD a 0 + 1 = q.getD a 0 ∨ q.getD a 0 + 1 = p.getD a 0) :=
  consecutive_points_adjacent d b fuel i hd hb1 hb30 hsz hi hfuel

/-- Witness of C5: `d = 3`, `b = 10`, the indices `153400678` and `153400679`. -/
theorem consecutive_indices_lattice_adjacent_witness :
    ∃ p q : List Nat,
      pointFromHilbertNumber 3 10 9 ((153400678 : Nat) : Int) = some p ∧
      pointFromHilbertNumber 3 10 9 ((153400678 + 1 : Nat) : Int) = some q ∧
      p.length = 3 ∧ q.length = 3 ∧
      ∃ a, a < 3 ∧ (∀ j, j ≠ a → p.getD j 0 = q.getD j 0) ∧
        (p.getD a 0 + 1 = q.getD a 0 ∨ q.getD a 0 + 1 = p.getD a 0) :=
  consecutive_indices_lattice_adjacent 3 10 9 153400678 (by decide) (by decide) (by decide)
    (by decide) (by decide) (by decide)

/-- C9. In one dimension the Hilbert index is the coordinate itself: for
`1 ≤ b ≤ 30` and `x < 2^b`, `hilbertNumberFromPoint [x] = x`; the exchange
passes turn `x` into its Gray code `x ^ (x >> 1)` and the correction term
`x >> 1` undoes that. -/
theorem hilbertNumberFromPoint_dimension_one (b x : Nat) (hb1 : 1 ≤ b) (hb30 : b ≤ 30)
    (hx : x < 2 ^ b) :
    hilbertNumberFromPoint 1 b [x] = x ∧
      encodeLoop 1 64 (2 ^ (b - 1)) [x] = [x ^^^ x >>> 1] ∧
      correctionLoop (x ^^^ x >>> 1) 64 (2 ^ (b - 1)) 0 = x >>> 1 := by
  refine ⟨hilbertNumberFromPoint_one b x hb1 hb30 hx, ?_, ?_⟩
  · rw [encodeLoop_eq 1 (b - 1) 64 [x] (by omega)]
    exact encodePasses_one b x hb1 hx
  · rw [correctionLoop_eq _ (b - 1) 64 0 (by omega), Nat.zero_xor]
    exact corr_gray x b hb1 hx

/-- Witness of C9: `b = 6` and `x` in `{30, 35, 40}`. -/
theorem hilbertNumberFromPoint_dimension_one_witness :
    (hilbertNumberFromPoint 1 6 [30] = 30 ∧ hilbertNumberFromPoint 1 6 [35] = 35) ∧
      hilbertNumberFromPoint 1 6 [40] = 40 :=
  ⟨⟨(hilbertNumberFromPoint_dimension_one 6 30 (by decide) (by decide) (by decide)).1,
    (hilbertNumberFromPoint_dimension_one 6 35 (by decide) (by decide) (by decide)).1⟩,
    (hilbertNumberFromPoint_dimension_one 6 40 (by decide) (by decide) (by decide)).1⟩

/-- C10. `pointFromHilbertNumber` returns a lattice point: for `d ≥ 1`,
`1 ≤ b ≤ 30`, `d * b ≤ 31` and an index `i < 2^(d*b)` the result has exactly `d`
coordinates and each of them is below `2^b`. -/
theorem pointFromHilbertNumber_in_lattice (d b fuel i : Nat) (hd : 1 ≤ d) (hb1 : 1 ≤ b)
    (hb30 : b ≤ 30) (_hsz : d * b ≤ 31) (_hi : i < 2 ^ (d * b)) (hfuel : b - 1 ≤ fuel) :
    ∃ p, pointFromHilbertNumber d b fuel (i : Int) = some p ∧ p.length = d ∧
      ∀ c ∈ p, c < 2 ^ b := by
  obtain ⟨p, h1, h2, h3⟩ := decoded_point d b fuel (i : Int) hd hb1 hb30 hfuel
  exact ⟨p, h1, h2, forall_mem_of_bounded h3⟩

/-- Witness of C10: `d = 3`, `b = 10`, index `153400678`. -/
theorem pointFromHilbertNumber_in_lattice_witness :
    ∃ p, pointFromHilbertNumber 3 10 9 ((153400678 : Nat) : Int) = some p ∧ p.length = 3 ∧
      ∀ c ∈ p, c < 2 ^ 10 :=
  pointFromHilbertNumber_in_lattice 3 10 9 153400678 (by decide) (by decide) (by decide)
    (by decide) (by decide) (by decide)

/-- C11. Bit layout of the index: for `d * b ≤ 31` and every transpose `x`,
`transposeToHilbertInteger x` is the sum over the levels `k < b` and the axes
`j < d` of bit `b - 1 - k` of `x[j]` times `2^(d*b - 1 - (k*d + j))`; the bits of
`x[j]` at positions `≥ b` are ignored. -/
theorem transposeToHilbertInteger_bit_layout (d b : Nat) (x : List Nat) (hsz : d * b ≤ 31) :
    transposeToHilbertInteger d b x
        = Finset.sum (Finset.range b) (fun k => Finset.sum (Finset.range d)
            (fun j => if (x.getD j 0).testBit (b - 1 - k) then 2 ^ (d * b - 1 - (k * d + j))
              else 0)) ∧
      ∀ y : List Nat,
        (∀ j r, j < d → r < b → (y.getD j 0).testBit r = (x.getD j 0).testBit r) →
        transposeToHilbertInteger d b y = transposeToHilbertInteger d b x :=
  ⟨transposeToHilbertInteger_sum d b x hsz,
    fun y h => transposeToHilbertInteger_congr d b y x hsz h⟩

/-- Witness of C11: `d = 2`, `b = 2`, the transpose `(3, 1)`. -/
theorem transposeToHilbertInteger_bit_layout_witness :
    transposeToHilbertInteger 2 2 [3, 1]
        = Finset.sum (Finset.range 2) (fun k => Finset.sum (Finset.range 2)
            (fun j => if (([3, 1] : List Nat).getD j 0).testBit (2 - 1 - k)
              then 2 ^ (2 * 2 - 1 - (k * 2 + j)) else 0)) ∧
      ∀ y : List Nat,
        (∀ j r, j < 2 → r < 2 →
          (y.getD j 0).testBit r = (([3, 1] : List Nat).getD j 0).testBit r) →
        transposeToHilbertInteger 2 2 y = transposeToHilbertInteger 2 2 [3, 1] :=
  transposeToHilbertInteger_bit_layout 2 2 [3, 1] (by decide)

/-- C12, counterexample. The Gray step of `hilbertNumberFromPoint` does not XOR axis
`i` with the value axis `i - 1` had before the step: on `(1, 0, 0)` with `d = 3` axis 2
ends as `1`, not `0 ^ 0`, and with `iterations = 1` the index bit of axis 2 is
set although `p[2] ^ p[1] = 0`. -/
theorem gray_step_not_pairwise :
    (grayEncode 3 [1, 0, 0]).getD 2 0
        ≠ ([1, 0, 0] : List Nat).getD 2 0 ^^^ ([1, 0, 0] : List Nat).getD 1 0 ∧
      (hilbertNumberFromPoint 3 1 [1, 0, 0]).testBit (3 - 1 - 2)
        ≠ xor ((([1, 0, 0] : List Nat).getD 2 0).testBit 0)
            ((([1, 0, 0] : List Nat).getD 1 0).testBit 0) := by
  decide

/-- C12, amended. In the Gray step of `hilbertNumberFromPoint` axis 0 is unchanged
and each axis `i ≥ 1` is XORed with the value axis `i - 1` holds after its own
update; with `iterations = 1` the index bit contributed by axis `i ≥ 1` is the
low bit of `p[i]` XOR the index bit contributed by axis `i - 1`, and the index
bit of axis 0 is the low bit of `p[0]`. -/
theorem gray_step_cumulative (d : Nat) (p : List Nat) (hd : d ≤ 31) (hlen : p.length = d) :
    (grayEncode d p).getD 0 0 = p.getD 0 0 ∧
      (∀ i, 1 ≤ i → i < d →
        (grayEncode d p).getD i 0 = p.getD i 0 ^^^ (grayEncode d p).getD (i - 1) 0) ∧
      (0 < d → (hilbertNumberFromPoint d 1 p).testBit (d - 1) = (p.getD 0 0).testBit 0) ∧
      (∀ i, 1 ≤ i → i < d →
        (hilbertNumberFromPoint d 1 p).testBit (d - 1 - i)
          = xor ((p.getD i 0).testBit 0)
              ((hilbertNumberFromPoint d 1 p).testBit (d - 1 - (i - 1)))) := by
  refine ⟨grayEncode_first d p (by omega), fun i h1 h2 => grayEncode_step d p (by omega) i h1 h2,
    ?_, ?_⟩
  · intro h0
    have h := index_bit_iterations_one d p hd (by omega) 0 h0
    rw [Nat.sub_zero] at h
    rw [h, grayEncode_first d p (by omega)]
  · intro i h1 h2
    rw [index_bit_iterations_one d p hd (by omega) i h2,
      index_bit_iterations_one d p hd (by omega) (i - 1) (by omega),
      grayEncode_step d p (by omega) i h1 h2, Nat.testBit_xor]

/-- Witness of the amended C12: `d = 3`, the point `(1, 0, 0)`. -/
theorem gray_step_cumulative_witness :
    (grayEncode 3 [1, 0, 0]).getD 0 0 = ([1, 0, 0] : List Nat).getD 0 0 ∧
      (∀ i, 1 ≤ i → i < 3 →
        (grayEncode 3 [1, 0, 0]).getD i 0
          = ([1, 0, 0] : List Nat).getD i 0 ^^^ (grayEncode 3 [1, 0, 0]).getD (i - 1) 0) ∧
      (0 < 3 → (hilbertNumberFromPoint 3 1 [1, 0, 0]).testBit (3 - 1)
        = (([1, 0, 0] : List Nat).getD 0 0).testBit 0) ∧
      (∀ i, 1 ≤ i → i < 3 →
        (hilbertNumberFromPoint 3 1 [1, 0, 0]).testBit (3 - 1 - i)
          = xor ((([1, 0, 0] : List Nat).getD i 0).testBit 0)
              ((hilbertNumberFromPoint 3 1 [1, 0, 0]).testBit (3 - 1 - (i - 1)))) :=
  gray_step_cumulative 3 [1, 0, 0] (by decide) (by decide)

/-- C13, counterexample. In `pointFromHilbertNumber` the XOR chain does not read a
seeded axis 0: for `d = 2` and the transpose `(0, 2)` axis 1 ends as `2 ^ 0 = 2`, not
as `2 ^ 0 ^ (2 >> 1) = 3`. -/
theorem gray_decode_axis_one_unseeded :
    (grayDecode 2 [0, 2]).getD 1 0
      ≠ ([0, 2] : List Nat).getD 1 0 ^^^ ([0, 2] : List Nat).getD 0 0
          ^^^ (([0, 2] : List Nat).getD (2 - 1) 0 >>> 1) := by
  decide

/-- C13, amended. In `pointFromHilbertNumber` the seed `t = x[d-1] >> 1` is taken
before the XOR chain and applied to axis 0 after it, so the chain reads the
unseeded axis 0: for `d ≥ 2` and a transpose `x` of length `d`, after the Gray
step axis 1 equals `x[1] ^ x[0]`, axis 0 equals `x[0] ^ (x[d-1] >> 1)`, and every
axis `i ≥ 1` equals `x[i] ^ x[i-1]`. -/
theorem gray_decode_seed_after_chain (d : Nat) (x : List Nat) (hd : 2 ≤ d)
    (hlen : x.length = d) :
    (grayDecode d x).getD 1 0 = x.getD 1 0 ^^^ x.getD 0 0 ∧
      (grayDecode d x).getD 0 0 = x.getD 0 0 ^^^ (x.getD (d - 1) 0 >>> 1) ∧
      ∀ i, 1 ≤ i → i < d → (grayDecode d x).getD i 0 = x.getD i 0 ^^^ x.getD (i - 1) 0 := by
  refine ⟨?_, ?_, ?_⟩
  · rw [getD_grayDecode d x (by omega) (by omega), if_neg (by omega), if_pos (by omega)]
  · rw [getD_grayDecode d x (by omega) (by omega), if_pos rfl]
  · intro i h1 h2
    rw [getD_grayDecode d x (by omega) (by omega), if_neg (by omega), if_pos h2]

/-- Witness of the amended C13: `d = 2`, the transpose `(0, 2)`. -/
theorem gray_decode_seed_after_chain_witness :
    (grayDecode 2 [0, 2]).getD 1 0 = ([0, 2] : List Nat).getD 1 0 ^^^ ([0, 2] : List Nat).getD 0 0 ∧
      (grayDecode 2 [0, 2]).getD 0 0
        = ([0, 2] : List Nat).getD 0 0 ^^^ (([0, 2] : List Nat).getD (2 - 1) 0 >>> 1) ∧
      ∀ i, 1 ≤ i → i < 2 →
        (grayDecode 2 [0, 2]).getD i 0
          = ([0, 2] : List Nat).getD i 0 ^^^ ([0, 2] : List Nat).getD (i - 1) 0 :=
  gray_decode_seed_after_chain 2 [0, 2] (by decide) (by decide)

/-- C14. The mask loop of `pointFromHilbertNumber` ends for every `1 ≤ b ≤ 30`, every
dimension and every start array after exactly `b - 1` passes: with `b - 1` rounds
of fuel or more it returns the array after the `b - 1` passes for the masks
`2, 4, ..., 2^(b-1)`, with less fuel it is still running; for `b = 1` it returns
its input without running the body.  The same holds for `pointFromHilbertNumber`
on every index. -/
theorem mask_loop_exact_passes (d b : Nat) (x : List Nat) (hb1 : 1 ≤ b) (hb30 : b ≤ 30) :
    (∀ fuel, b - 1 ≤ fuel →
        decodeLoop d (shlInt 2 (b - 1)) fuel 2 x = some (decodePasses d (b - 1) 1 x)) ∧
      (∀ fuel, fuel < b - 1 → decodeLoop d (shlInt 2 (b - 1)) fuel 2 x = none) ∧
      (b = 1 → decodeLoop d (shlInt 2 (b - 1)) 0 2 x = some x) ∧
      ∀ (h : Int) (fuel : Nat),
        (∃ p, pointFromHilbertNumber d b fuel h = some p) ↔ b - 1 ≤ fuel := by
  have hz : shlInt 2 (b - 1) = ((2 ^ b : Nat) : Int) := by
    rw [shlInt_two (by omega), Nat.sub_add_cancel hb1]
  have h2 : (2 : Nat) = 2 ^ 1 := by norm_num
  refine ⟨?_, ?_, ?_, ?_⟩
  · intro fuel hf
    rw [hz]
    conv_lhs => rw [h2]
    exact decodeLoop_eq d b (b - 1) 1 fuel x (by omega) hf
  · intro fuel hf
    rw [hz]
    conv_lhs => rw [h2]
    exact decodeLoop_none d b (b - 1) 1 fuel x (by omega) hf
  · intro hb
    subst hb
    rw [hz]
    conv_lhs => rw [h2]
    exact decodeLoop_eq d 1 0 1 0 x (by omega) (le_refl _)
  · intro h fuel
    constructor
    · rintro ⟨p, hp⟩
      by_contra hcon
      rw [pointFromHilbertNumber_none d b fuel h hb1 hb30 (by omega)] at hp
      exact Option.noConfusion hp
    · intro hf
      exact ⟨_, pointFromHilbertNumber_eq d b fuel h hb1 hb30 hf⟩

/-- Witness of C14: `d = 2`, `b = 3`, the start array `(1, 2)`. -/
theorem mask_loop_exact_passes_witness :
    (∀ fuel, 3 - 1 ≤ fuel →
        decodeLoop 2 (shlInt 2 (3 - 1)) fuel 2 [1, 2] = some (decodePasses 2 (3 - 1) 1 [1, 2])) ∧
      (∀ fuel, fuel < 3 - 1 → decodeLoop 2 (shlInt 2 (3 - 1)) fuel 2 [1, 2] = none) ∧
      (3 = 1 → decodeLoop 2 (shlInt 2 (3 - 1)) 0 2 [1, 2] = some [1, 2]) ∧
      ∀ (h : Int) (fuel : Nat),
        (∃ p, pointFromHilbertNumber 2 3 fuel h = some p) ↔ 3 - 1 ≤ fuel :=
  mask_loop_exact_passes 2 3 [1, 2] (by decide) (by decide)

/-- C15. Endpoints of the curve: for `d ≥ 1`, `1 ≤ b ≤ 30`, `d * b ≤ 31` the origin has
index 0, index 0 decodes to the origin, and the last index `2^(d*b) - 1` decodes
to `(2^b - 1, 0, ..., 0)`. -/
theorem curve_endpoints (d b fuel : Nat) (hd : 1 ≤ d) (hb1 : 1 ≤ b) (hb30 : b ≤ 30)
    (hsz : d * b ≤ 31) (hfuel : b - 1 ≤ fuel) :
    hilbertNumberFromPoint d b (List.replicate d 0) = 0 ∧
      pointFromHilbertNumber d b fuel 0 = some (List.replicate d 0) ∧
      pointFromHilbertNumber d b fuel ((2 ^ (d * b) - 1 : Nat) : Int)
        = some ((2 ^ b - 1) :: List.replicate (d - 1) 0) := by
  refine ⟨hilbertNumberFromPoint_zero d b hd hb1 hsz, ?_, ?_⟩
  · rw [pointFromHilbertNumber_eq d b fuel 0 hb1 hb30 hfuel,
      decodeTranspose_zero d b hd (by omega)]
  · rw [pointFromHilbertNumber_eq d b fuel _ hb1 hb30 hfuel,
      decodeTranspose_last d b hd hb1 hsz]

/-- Witness of C15: `d = 3`, `b = 10`. -/
theorem curve_endpoints_witness :
    hilbertNumberFromPoint 3 10 (List.replicate 3 0) = 0 ∧
      pointFromHilbertNumber 3 10 9 0 = some (List.replicate 3 0) ∧
      pointFromHilbertNumber 3 10 9 ((2 ^ (3 * 10) - 1 : Nat) : Int)
        = some ((2 ^ 10 - 1) :: List.replicate (3 - 1) 0) :=
  curve_endpoints 3 10 9 (by decide) (by decide) (by decide) (by decide) (by decide)

/-- C16. Out-of-range points alias onto lattice points: for `d ≥ 1`, `b ≥ 1`,
`d * b ≤ 31` and every input `p` with at least `d` coordinates of any size,
`hilbertNumberFromPoint p` equals `hilbertNumberFromPoint` of the first `d`
coordinates of `p` reduced modulo `2^b`, and it is below `2^(d*b)`. -/
theorem out_of_range_point_aliases (d b : Nat) (p : List Nat) (hd : 1 ≤ d) (hb : 1 ≤ b)
    (hsz : d * b ≤ 31) (hlen : d ≤ p.length) :
    hilbertNumberFromPoint d b p
        = hilbertNumberFromPoint d b ((p.take d).map (fun c => c % 2 ^ b)) ∧
      hilbertNumberFromPoint d b p < 2 ^ (d * b) :=
  ⟨hilbertNumberFromPoint_alias d b p hd hb hsz hlen, hilbertNumberFromPoint_lt d b p hd hsz⟩

/-- Witness of C16: `d = 2`, `b = 2`, the input `(7, 9, 100)`. -/
theorem out_of_range_point_aliases_witness :
    hilbertNumberFromPoint 2 2 [7, 9, 100]
        = hilbertNumberFromPoint 2 2 ((([7, 9, 100] : List Nat).take 2).map
            (fun c => c % 2 ^ 2)) ∧
      hilbertNumberFromPoint 2 2 [7, 9, 100] < 2 ^ (2 * 2) :=
  out_of_range_point_aliases 2 2 [7, 9, 100] (by decide) (by decide) (by decide) (by decide)

/-- C17. Out-of-range indices alias onto valid ones: for `d ≥ 1`, `1 ≤ b ≤ 30`,
`d * b ≤ 31` and every integer `h`, negative or not, `pointFromHilbertNumber h`
equals `pointFromHilbertNumber (h mod 2^(d*b))`, and with enough fuel the result
is a point of `[0, 2^b)^d`. -/
theorem out_of_range_index_aliases (d b fuel : Nat) (h : Int) (hd : 1 ≤ d) (hb1 : 1 ≤ b)
    (hb30 : b ≤ 30) (hsz : d * b ≤ 31) :
    pointFromHilbertNumber d b fuel h
        = pointFromHilbertNumber d b fuel (h % (2 : Int) ^ (d * b)) ∧
      (b - 1 ≤ fuel →
        ∃ p, pointFromHilbertNumber d b fuel h = some p ∧ p.length = d ∧
          ∀ c ∈ p, c < 2 ^ b) := by
  refine ⟨pointFromHilbertNumber_alias d b fuel h hsz, ?_⟩
  intro hfuel
  obtain ⟨p, h1, h2, h3⟩ := decoded_point d b fuel h hd hb1 hb30 hfuel
  exact ⟨p, h1, h2, forall_mem_of_bounded h3⟩

/-- Witness of C17: `d = 2`, `b = 2`, the index `-3`. -/
theorem out_of_range_index_aliases_witness :
    pointFromHilbertNumber 2 2 1 (-3)
        = pointFromHilbertNumber 2 2 1 ((-3) % (2 : Int) ^ (2 * 2)) ∧
      (2 - 1 ≤ 1 →
        ∃ p, pointFromHilbertNumber 2 2 1 (-3) = some p ∧ p.length = 2 ∧
          ∀ c ∈ p, c < 2 ^ 2) :=
  out_of_range_index_aliases 2 2 1 (-3) (by decide) (by decide) (by decide) (by decide)

/-- C18. The two bit-interleaving helpers are mutual inverses for `d ≥ 1`, `b ≥ 1`,
`d * b ≤ 31`: `transposeToHilbertInteger (hilbertIntegerToTranspose h) = h` for
`h < 2^(d*b)`, `hilbertIntegerToTranspose (transposeToHilbertInteger x) = x` for
`x` of length `d` with entries below `2^b`, and bit `b - 1 - k` of axis `i` of the
transpose of `h` is bit `d*b - 1 - i - k*d` of `h`. -/
theorem interleaving_helpers_inverse (d b : Nat) (hd : 1 ≤ d) (_hb : 1 ≤ b)
    (hsz : d * b ≤ 31) :
    (∀ h : Nat, h < 2 ^ (d * b) →
        transposeToHilbertInteger d b
          (hilbertIntegerToTranspose d b (h : Int) (List.replicate d 0)) = h) ∧
      (∀ x : List Nat, x.length = d → (∀ c ∈ x, c < 2 ^ b) →
        hilbertIntegerToTranspose d b (ulongToInt (transposeToHilbertInteger d b x))
          (List.replicate d 0) = x) ∧
      ∀ h : Nat, h < 2 ^ (d * b) → ∀ i k, i < d → k < b →
        ((hilbertIntegerToTranspose d b (h : Int) (List.replicate d 0)).getD i 0).testBit
            (b - 1 - k)
          = h.testBit (d * b - 1 - i - k * d) :=
  ⟨fun h hh => transposeToHilbertInteger_hilbertIntegerToTranspose d b h hd hsz hh,
    fun x hlen hx => hilbertIntegerToTranspose_transposeToHilbertInteger d b x hsz hlen
      (bounded_of_forall_mem hx),
    fun h hh i k hi hk => testBit_transpose_level d b h hd hsz hh i k hi hk⟩

/-- Witness of C18: `d = 3`, `b = 10`. -/
theorem interleaving_helpers_inverse_witness :
    (∀ h : Nat, h < 2 ^ (3 * 10) →
        transposeToHilbertInteger 3 10
          (hilbertIntegerToTranspose 3 10 (h : Int) (List.replicate 3 0)) = h) ∧
      (∀ x : List Nat, x.length = 3 → (∀ c ∈ x, c < 2 ^ 10) →
        hilbertIntegerToTranspose 3 10 (ulongToInt (transposeToHilbertInteger 3 10 x))
          (List.replicate 3 0) = x) ∧
      ∀ h : Nat, h < 2 ^ (3 * 10) → ∀ i k, i < 3 → k < 10 →
        ((hilbertIntegerToTranspose 3 10 (h : Int) (List.replicate 3 0)).getD i 0).testBit
            (10 - 1 - k)
          = h.testBit (3 * 10 - 1 - i - k * 3) :=
  interleaving_helpers_inverse 3 10 (by decide) (by decide) (by decide)

end HilbertCurve
